import Mathlib

/-!
# Verification of the jstream JSON stream parser

Shallow embedding of `src/jstream.c` (functions `jstream`, `jstream_dump`,
`jstream_skip` and their private helpers) and proofs about it.

Modelling conventions, fixed throughout:

* A character delivered by the `get` callback is an `Int` (the C callback
  returns `int`; a negative value signals end of stream).  The stream itself
  is a finite `List Int`; once it is exhausted every further `get` returns
  `-1` and consumes nothing.
* `sizeof(unsigned) = 4` and `sizeof(double) = 8`, the layout the source
  assumes (a number payload is `8 / 4 = 2` words, string payloads are packed
  four bytes per word).
* A buffer word is modelled by the inductive type `W`: `W.n v` is a word
  holding the unsigned value `v` (tags and element counts), `W.chs b0 b1 b2 b3`
  is a word holding four packed string-payload bytes, and `W.d q` / `W.dp`
  are the two words of a number payload, the value of the stored double kept
  abstractly as the exact rational `q` (the bit pattern itself is never
  inspected by the code, only copied, compared and re-rendered).
* `strchr(set, c)` in C converts `c` to `char` and also matches the
  terminating NUL of `set`; membership is therefore decided on `c % 256`
  and the NUL byte `0` belongs to every set.  This is transcribed exactly.
* C library numeric routines (`strtod`, `printf "%g"`) are modelled from
  their C-standard semantics over exact rationals; binary64 rounding is not
  modelled.  Every concrete instance appearing in a counterexample or
  witness below involves only integers below `2^31`, which binary64
  represents exactly, so on those inputs the exact-rational model and IEEE
  double arithmetic agree.
-/

namespace JStream

/-- The byte a C `char`-store keeps for the int character `c`
    (`buf[j] = p->clast` stores the low byte). -/
def byteOf (c : Int) : Nat := (c % 256).toNat

/-- `strchr(" \r\t\n", c) != NULL`: `c` is whitespace for the scanner.
    The terminating NUL of the set string is matched as well, and the
    comparison is on the `char` value of `c`. -/
def wsMem (c : Int) : Bool :=
  let b := byteOf c
  b = 32 || b = 13 || b = 9 || b = 10 || b = 0

/-- `strchr(" \r\t\n]},:", c) != NULL`: legal follower of a literal. -/
def followMem (c : Int) : Bool :=
  let b := byteOf c
  b = 32 || b = 13 || b = 9 || b = 10 || b = 93 || b = 125 || b = 44 ||
    b = 58 || b = 0

/-- `strchr("0123456789.+-eE", c) != NULL`: a numeral character.  The
    terminating NUL of the set string is matched as well, so a NUL byte
    from the source continues the numeral accumulation. -/
def numMem (c : Int) : Bool :=
  let b := byteOf c
  (48 ≤ b && b ≤ 57) || b = 46 || b = 43 || b = 45 || b = 101 || b = 69 ||
    b = 0

/-- Value codes from jstream.h. -/
def NULLc : Nat := 0
def TRUEc : Nat := 1
def FALSEc : Nat := 2
def NUMBERc : Nat := 3
def STRINGc : Nat := 4
def ARRAYc : Nat := 5
def OBJECTc : Nat := 6

/-- Error codes from jstream.h, plus `fuelOut`, an artefact of the fueled
    embedding of the mutual recursion (never returned on any run the
    theorems below speak about). -/
inductive JErr where
  | none_
  | memory
  | value
  | null_
  | false_
  | true_
  | number
  | numberTooLong
  | eosInsideString
  | comma
  | colon
  | closedBracket
  | fuelOut
deriving DecidableEq, Repr

/-- One word of the output buffer (see the module docstring). -/
inductive W where
  | n (v : Nat)
  | d (q : ℚ)
  | dp
  | chs (b0 b1 b2 b3 : Nat)
deriving DecidableEq, Repr

/-- Parser state: the remaining stream, the last scanned character
    (`p->clast`) and the buffer built so far (`p->obj`; `p->size` is its
    length). -/
structure St where
  input : List Int
  clast : Int
  obj : List W
deriving DecidableEq, Repr

/-- `p->get()`: pop one character; an exhausted stream yields `-1`. -/
def get : St → Int × St
  | ⟨[], c, o⟩ => (-1, ⟨[], c, o⟩)
  | ⟨c :: r, _, o⟩ => (c, ⟨r, c, o⟩)

/-- `jstream_align`: bytes to words, rounding up. -/
def jstream_align (size : Nat) : Nat :=
  if size % 4 = 0 then size / 4 else 1 + size / 4

/-- `jstream_next`: discard whitespace characters (in the `strchr` sense,
    hence also NUL bytes) and leave the first non-whitespace character in
    `clast`. -/
def nextGo : List Int → List W → St
  | [], o => ⟨[], -1, o⟩
  | c :: r, o => if wsMem c then nextGo r o else ⟨r, c, o⟩

def jstream_next (s : St) : St := nextGo s.input s.obj

/-- `jstream_true`: entered with `'t'` in `clast`; match `rue`, then the
    follower must satisfy `followMem`. -/
def jstream_true (s : St) : Except JErr St :=
  let (c1, s1) := get s
  if c1 ≠ 114 then .error .true_ else
  let (c2, s2) := get s1
  if c2 ≠ 117 then .error .true_ else
  let (c3, s3) := get s2
  if c3 ≠ 101 then .error .true_ else
  let (c4, s4) := get s3
  if ¬ followMem c4 then .error .true_ else
  let s5 : St := ⟨s4.input, c4, s4.obj ++ [W.n TRUEc]⟩
  if ¬ wsMem c4 then .ok s5 else .ok (jstream_next s5)

/-- `jstream_false`: match `alse` after the dispatched `'f'`. -/
def jstream_false (s : St) : Except JErr St :=
  let (c1, s1) := get s
  if c1 ≠ 97 then .error .false_ else
  let (c2, s2) := get s1
  if c2 ≠ 108 then .error .false_ else
  let (c3, s3) := get s2
  if c3 ≠ 115 then .error .false_ else
  let (c4, s4) := get s3
  if c4 ≠ 101 then .error .false_ else
  let (c5, s5) := get s4
  if ¬ followMem c5 then .error .false_ else
  let s6 : St := ⟨s5.input, c5, s5.obj ++ [W.n FALSEc]⟩
  if ¬ wsMem c5 then .ok s6 else .ok (jstream_next s6)

/-- `jstream_null`: match `ull` after the dispatched `'n'`. -/
def jstream_null (s : St) : Except JErr St :=
  let (c1, s1) := get s
  if c1 ≠ 117 then .error .null_ else
  let (c2, s2) := get s1
  if c2 ≠ 108 then .error .null_ else
  let (c3, s3) := get s2
  if c3 ≠ 108 then .error .null_ else
  let (c4, s4) := get s3
  if ¬ followMem c4 then .error .null_ else
  let s5 : St := ⟨s4.input, c4, s4.obj ++ [W.n NULLc]⟩
  if ¬ wsMem c4 then .ok s5 else .ok (jstream_next s5)

/-- The value stored by `p->clast = buf[i]` where `buf[i]` is a (signed)
    `char`: the character truncated to a signed byte. -/
def charOf (c : Int) : Int := (c + 128) % 256 - 128

def isDigitB (b : Nat) : Bool := 48 ≤ b && b ≤ 57

/-- Value of a list of ASCII digit bytes, most significant first. -/
def digitsVal (l : List Nat) : Nat := l.foldl (fun a b => 10 * a + (b - 48)) 0

/-- Exponent part of a `strtod` subject: returns the exponent value and the
    number of characters it consumes (0 when there is no well-formed
    exponent part). -/
def expPart (r : List Nat) : Int × Nat :=
  match r with
  | [] => (0, 0)
  | e :: rest =>
    if e = 101 || e = 69 then
      match rest with
      | 45 :: r2 =>
        let d := r2.takeWhile isDigitB
        if d = [] then (0, 0) else (-(digitsVal d : Int), 2 + d.length)
      | 43 :: r2 =>
        let d := r2.takeWhile isDigitB
        if d = [] then (0, 0) else ((digitsVal d : Int), 2 + d.length)
      | _ =>
        let d := rest.takeWhile isDigitB
        if d = [] then (0, 0) else ((digitsVal d : Int), 1 + d.length)
    else (0, 0)

/-- Modelled from the C-standard semantics of `strtod` on a decimal subject
    sequence (optional sign, digits with an optional decimal point, optional
    exponent part): the converted value as an exact rational together with
    the length of the longest valid prefix (0 when no conversion is
    performed).  Binary64 rounding and overflow to `HUGE_VAL` are not
    modelled; see the module docstring. -/
def strtodM (t : List Nat) : ℚ × Nat :=
  let sp : ℚ × List Nat × Nat :=
    match t with
    | 45 :: r => (-1, r, 1)
    | 43 :: r => (1, r, 1)
    | _ => (1, t, 0)
  let sgn := sp.1; let t1 := sp.2.1; let n1 := sp.2.2
  let d1 := t1.takeWhile isDigitB
  let r1 := t1.drop d1.length
  let fp : List Nat × List Nat × Nat :=
    match r1 with
    | 46 :: r =>
      let d := r.takeWhile isDigitB
      (d, r.drop d.length, 1 + d.length)
    | _ => ([], r1, 0)
  let d2 := fp.1; let r2 := fp.2.1; let n2 := fp.2.2
  if d1.length + d2.length = 0 then (0, 0)
  else
    let m : ℚ := sgn * ((digitsVal d1 : ℚ) + (digitsVal d2 : ℚ) / (10 : ℚ) ^ d2.length)
    let ep := expPart r2
    (m * (10 : ℚ) ^ ep.1, n1 + d1.length + n2 + ep.2)

/-- The accumulation loop of `jstream_number`: `k` is the number of free
    slots left in the 128-byte scratch buffer beyond `buf[0]` (so it starts
    at 127); filling them all without meeting a non-numeral character is the
    number-too-long error.  The terminator is stored into `clast` as a
    `char` (`p->clast = buf[i]`). -/
def numLoop : Nat → St → List Nat → Except JErr (List Nat × St)
  | 0, _, _ => .error .numberTooLong
  | k + 1, s, acc =>
    let (c, s') := get s
    if numMem c then numLoop k s' (acc ++ [byteOf c])
    else .ok (acc, ⟨s'.input, charOf c, s'.obj⟩)

/-- The bytes `strtod(buf, &s)` and `strlen(buf)` see: `buf` as a C
    string, up to its first NUL byte. -/
def cstrOf (l : List Nat) : List Nat := l.takeWhile fun b => b ≠ 0

/-- `jstream_number`: entered with the first numeral character in `clast`.
    `strtod` and `strlen` read the scratch buffer as a C string, so they
    see only the bytes before the first NUL the accumulation may have
    stored. -/
def jstream_number (s : St) : Except JErr St :=
  match numLoop 127 s [byteOf s.clast] with
  | .error e => .error e
  | .ok (buf, s1) =>
    let v := strtodM (cstrOf buf)
    if v.2 ≠ (cstrOf buf).length then .error .number
    else
      let s2 : St := ⟨s1.input, s1.clast, s1.obj ++ [W.n NUMBERc, W.d v.1, W.dp]⟩
      if ¬ wsMem s2.clast then .ok s2 else .ok (jstream_next s2)

/-- Pack a byte list whose length is a multiple of four into words. -/
def pack4s : List Nat → List W
  | b0 :: b1 :: b2 :: b3 :: r => W.chs b0 b1 b2 b3 :: pack4s r
  | _ => []

/-- The byte image of `strcpy` into a freshly reserved word-aligned area:
    the bytes, the terminating NUL, and zero padding up to a word boundary
    (the C code leaves the padding bytes unspecified; the model fixes them
    to zero). -/
def padTail (bs : List Nat) : List Nat :=
  bs ++ [0] ++ List.replicate ((4 - (bs.length + 1) % 4) % 4) 0

/-- The inner scanning loop of `jstream_string`: read up to `k` further
    characters into the scratch buffer, stopping at `'"'` (the int
    comparison `(p->clast = p->get()) != '"'`), failing on a negative
    character.  Returns `true` with the collected bytes when the quote was
    met, `false` when the buffer filled up first. -/
def strLoop : Nat → St → List Nat → Except JErr (Bool × List Nat × St)
  | 0, s, acc => .ok (false, acc, s)
  | k + 1, s, acc =>
    let (c, s') := get s
    if c = 34 then .ok (true, acc, ⟨s'.input, 34, s'.obj⟩)
    else if c < 0 then .error .eosInsideString
    else strLoop k ⟨s'.input, c, s'.obj⟩ (acc ++ [byteOf c])

/-- The outer loop of `jstream_string`: every full 64-byte scratch buffer is
    flushed verbatim (16 words); the final partial buffer is terminated with
    NUL and copied by `strcpy`, which truncates it at its first NUL byte.
    The fuel only bounds the number of flushed chunks; each chunk consumes
    64 characters, so `input.length + 1` always suffices. -/
def strOuter : Nat → St → Except JErr St
  | 0, _ => .error .fuelOut
  | f + 1, s =>
    match strLoop 64 s [] with
    | .error e => .error e
    | .ok (true, acc, s') =>
      let fin := acc.takeWhile (fun b => b ≠ 0)
      .ok (jstream_next ⟨s'.input, s'.clast, s'.obj ++ pack4s (padTail fin)⟩)
    | .ok (false, acc, s') =>
      strOuter f ⟨s'.input, s'.clast, s'.obj ++ pack4s acc⟩

/-- `jstream_string`: entered with the opening `'"'` in `clast`. -/
def jstream_string (s : St) : Except JErr St :=
  strOuter (s.input.length + 1) ⟨s.input, s.clast, s.obj ++ [W.n STRINGc]⟩

/-- `++ p->obj[ilen]`: increment the count word at index `ilen`. -/
def bumpAt (o : List W) (i : Nat) : List W :=
  match o.get? i with
  | some (W.n k) => o.set i (W.n (k + 1))
  | _ => o

mutual

/-- `jstream_value`: dispatch on `clast`.  The fuel only feeds the mutual
    recursion through arrays and objects. -/
def jstream_value : Nat → St → Except JErr St
  | 0, _ => .error .fuelOut
  | f + 1, s =>
    if s.clast = 91 then jstream_array f s
    else if s.clast = 123 then jstream_object f s
    else if s.clast = 34 then jstream_string s
    else if (48 ≤ s.clast ∧ s.clast ≤ 57) ∨ s.clast = 45 then jstream_number s
    else if s.clast = 102 then jstream_false s
    else if s.clast = 110 then jstream_null s
    else if s.clast = 116 then jstream_true s
    else .error .value

/-- `jstream_array`: emit the tag and a zero count, then parse elements. -/
def jstream_array : Nat → St → Except JErr St
  | 0, _ => .error .fuelOut
  | f + 1, s =>
    let ilen := s.obj.length + 1
    let s2 := jstream_next ⟨s.input, s.clast, s.obj ++ [W.n ARRAYc, W.n 0]⟩
    if s2.clast = 93 then .ok (jstream_next s2)
    else
      match jstream_arrayLoop f ilen s2 with
      | .error e => .error e
      | .ok s3 => .ok (jstream_next s3)

/-- The element loop of `jstream_array`: bump the count, parse a value;
    `','` continues, anything else breaks, and then anything but `']'` is
    the closed-bracket error. -/
def jstream_arrayLoop : Nat → Nat → St → Except JErr St
  | 0, _, _ => .error .fuelOut
  | f + 1, ilen, s =>
    match jstream_value f ⟨s.input, s.clast, bumpAt s.obj ilen⟩ with
    | .error e => .error e
    | .ok s2 =>
      if s2.clast = 44 then jstream_arrayLoop f ilen (jstream_next s2)
      else if s2.clast = 93 then .ok s2
      else .error .closedBracket

/-- `jstream_object`: emit the tag and a zero count, then parse pairs. -/
def jstream_object : Nat → St → Except JErr St
  | 0, _ => .error .fuelOut
  | f + 1, s =>
    let ilen := s.obj.length + 1
    let s2 := jstream_next ⟨s.input, s.clast, s.obj ++ [W.n OBJECTc, W.n 0]⟩
    if s2.clast = 125 then .ok (jstream_next s2)
    else
      match jstream_objectLoop f ilen s2 with
      | .error e => .error e
      | .ok s3 => .ok (jstream_next s3)

/-- The member loop of `jstream_object`: bump the count, parse a key value
    (`':'` must follow), parse a value; `'}'` breaks, `','` continues and
    anything else is the comma error. -/
def jstream_objectLoop : Nat → Nat → St → Except JErr St
  | 0, _, _ => .error .fuelOut
  | f + 1, ilen, s =>
    match jstream_value f ⟨s.input, s.clast, bumpAt s.obj ilen⟩ with
    | .error e => .error e
    | .ok s2 =>
      if s2.clast ≠ 58 then .error .colon
      else
        match jstream_value f (jstream_next s2) with
        | .error e => .error e
        | .ok s3 =>
          if s3.clast = 125 then .ok s3
          else if s3.clast ≠ 44 then .error .comma
          else jstream_objectLoop f ilen (jstream_next s3)

end

/-- `jstream`: initialise the parse state, skip leading whitespace, parse
    one value.  The fuel `3 * input.length + 4` is an artefact of the
    embedding: the mutual recursion loses at most three fuel units
    (`value → array/object → loop → value`) per consumed source character,
    so this fuel is never exhausted on the runs the C code performs. -/
def jstream (inp : List Int) : Except JErr (List W) :=
  match jstream_value (3 * inp.length + 4) (jstream_next ⟨inp, -1, []⟩) with
  | .ok s => .ok s.obj
  | .error e => .error e

/-- The outcome visible in the caller's `jstream_param_s` structure: the
    error code and the `obj` field.  On any error the partially built buffer
    is freed (`free(p->obj); p->obj = NULL;`), modelled by `none`. -/
def jstream_param (inp : List Int) : JErr × Option (List W) :=
  match jstream_value (3 * inp.length + 4) (jstream_next ⟨inp, -1, []⟩) with
  | .ok s => (.none_, some s.obj)
  | .error e => (e, none)

/-- The byte sequence `strlen`/`fputs` see from a string payload: packed
    bytes up to the first NUL. -/
def strBytes : List W → List Nat
  | W.chs b0 b1 b2 b3 :: r =>
    if b0 = 0 then []
    else b0 :: (if b1 = 0 then []
      else b1 :: (if b2 = 0 then []
        else b2 :: (if b3 = 0 then [] else b3 :: strBytes r)))
  | _ => []

/-- `strlen((char*)(obj + 1))`. -/
def strlenB (r : List W) : Nat := (strBytes r).length

mutual

/-- `jstream_skip`, fueled: returns the suffix of the buffer following the
    value at its head (`none` both for the C code's invalid-tag NULL return
    and on fuel exhaustion, which never occurs at the wrapper's fuel). -/
def jstream_skipF : Nat → List W → Option (List W)
  | 0, _ => none
  | f + 1, o =>
    match o with
    | W.n 0 :: r => some r
    | W.n 1 :: r => some r
    | W.n 2 :: r => some r
    | W.n 3 :: r => some (r.drop 2)
    | W.n 4 :: r => some (r.drop (jstream_align (strlenB r + 1)))
    | W.n 5 :: W.n len :: r => jstream_skipN f len r
    | W.n 6 :: W.n len :: r => jstream_skipN f (2 * len) r
    | _ => none

/-- Skip `k` consecutive values (the array/object loops of `jstream_skip`;
    an object with `n` pairs performs `2n` element skips). -/
def jstream_skipN : Nat → Nat → List W → Option (List W)
  | _, 0, r => some r
  | 0, _ + 1, _ => none
  | f + 1, k + 1, r =>
    match jstream_skipF f r with
    | some r' => jstream_skipN f k r'
    | none => none

end

/-- `jstream_skip` at its natural fuel. -/
def jstream_skip (o : List W) : Option (List W) :=
  jstream_skipF (o.length + 1) o

/-- ASCII digit bytes of `n`, most significant first (`[]` for 0). -/
def digitsF : Nat → Nat → List Nat
  | 0, _ => []
  | f + 1, n => if n = 0 then [] else n % 10 :: digitsF f (n / 10)

def natDigs (n : Nat) : List Nat := ((digitsF n n).reverse).map (· + 48)

/-- Drop trailing `'0'` bytes. -/
def stripTrail (l : List Nat) : List Nat :=
  ((l.reverse).dropWhile (fun b => b = 48)).reverse

/-- `⌊log10 q⌋` for positive `q`, computed from digit counts and corrected
    by direct comparison (only ever used computationally). -/
def log10floor (q : ℚ) : Int :=
  let a : Int := (digitsF q.num.natAbs q.num.natAbs).length
  let b : Int := (digitsF q.den q.den).length
  let k0 : Int := a - b - 1
  if (10 : ℚ) ^ (k0 + 2) ≤ q then k0 + 2
  else if (10 : ℚ) ^ (k0 + 1) ≤ q then k0 + 1
  else k0

/-- Nearest integer, ties to even (the rounding `printf` applies when
    shortening to the requested number of significant digits). -/
def rndEven (q : ℚ) : Int :=
  let fl := ⌊q⌋
  let fr := q - (fl : ℚ)
  if fr < 1 / 2 then fl
  else if 1 / 2 < fr then fl + 1
  else if fl % 2 = 0 then fl else fl + 1

/-- The exponent field of `%e`-style output: sign and at least two digits. -/
def expField (e : Int) : List Nat :=
  (if e < 0 then [45] else [43]) ++
    (if e.natAbs < 10 then [48] ++ natDigs e.natAbs else natDigs e.natAbs)

/-- `printf("%g", d)` for a positive value, modelled from the C standard:
    precision 6, `%e` style when the decimal exponent `X` satisfies
    `X < -4 ∨ 6 ≤ X`, `%f` style otherwise, trailing zeros (and a trailing
    decimal point) removed. -/
def gFormatPos (q : ℚ) : List Nat :=
  let e0 := log10floor q
  let d0 := rndEven (q * (10 : ℚ) ^ (5 - e0))
  let d := if d0 < 10 ^ 6 then d0 else d0 / 10
  let e := if d0 < 10 ^ 6 then e0 else e0 + 1
  let ds := natDigs d.toNat
  if -4 ≤ e ∧ e < 6 then
    if 0 ≤ e then
      let ip := ds.take (e.toNat + 1)
      let fp := stripTrail (ds.drop (e.toNat + 1))
      ip ++ (if fp = [] then [] else 46 :: fp)
    else
      [48, 46] ++ List.replicate (e.natAbs - 1) 48 ++ stripTrail ds
  else
    let fp := stripTrail ds.tail
    ds.take 1 ++ (if fp = [] then [] else 46 :: fp) ++ [101] ++ expField e

/-- `printf("%g", d)`, finite values (see the module docstring for the
    exact-rational modelling of the stored double). -/
def gFormat (q : ℚ) : List Nat :=
  if q = 0 then [48]
  else if q < 0 then 45 :: gFormatPos (-q)
  else gFormatPos q

mutual

/-- `jstream_dump`, fueled: the text written to the sink (as ASCII bytes)
    and the position following the dumped value.  The invalid-tag default
    branch, which prints a diagnostic and returns NULL, is modelled by
    `none`. -/
def jstream_dumpF : Nat → List W → Option (List Nat × List W)
  | 0, _ => none
  | f + 1, o =>
    match o with
    | W.n 0 :: r => some ([110, 117, 108, 108], r)
    | W.n 1 :: r => some ([116, 114, 117, 101], r)
    | W.n 2 :: r => some ([102, 97, 108, 115, 101], r)
    | W.n 3 :: W.d q :: W.dp :: r => some (gFormat q, r)
    | W.n 4 :: r =>
      some ([34] ++ strBytes r ++ [34], r.drop (jstream_align (strlenB r + 1)))
    | W.n 5 :: W.n len :: r =>
      match jstream_dumpA f len r with
      | some (t, r') => some ([91] ++ t ++ [93], r')
      | none => none
    | W.n 6 :: W.n len :: r =>
      match jstream_dumpO f len r with
      | some (t, r') => some ([123] ++ t ++ [125], r')
      | none => none
    | _ => none

/-- The element loop of `jstream_dump` on arrays: `','` after every element
    but the last. -/
def jstream_dumpA : Nat → Nat → List W → Option (List Nat × List W)
  | _, 0, r => some ([], r)
  | 0, _ + 1, _ => none
  | f + 1, k + 1, r =>
    match jstream_dumpF f r with
    | some (t, r') =>
      match jstream_dumpA f k r' with
      | some (t2, r'') => some (t ++ (if k = 0 then [] else [44]) ++ t2, r'')
      | none => none
    | none => none

/-- The pair loop of `jstream_dump` on objects: `key:value`, `','` after
    every pair but the last. -/
def jstream_dumpO : Nat → Nat → List W → Option (List Nat × List W)
  | _, 0, r => some ([], r)
  | 0, _ + 1, _ => none
  | f + 1, k + 1, r =>
    match jstream_dumpF f r with
    | some (tk, r') =>
      match jstream_dumpF f r' with
      | some (tv, r'') =>
        match jstream_dumpO f k r'' with
        | some (t2, r3) =>
          some (tk ++ [58] ++ tv ++ (if k = 0 then [] else [44]) ++ t2, r3)
        | none => none
      | none => none
    | none => none

end

/-- `jstream_dump` at its natural fuel. -/
def jstream_dump (o : List W) : Option (List Nat × List W) :=
  jstream_dumpF (o.length + 1) o

/-!
## Abstract values

The encoding grammar of the buffer (jstream.h, §3 of the design): abstract
JSON values as stored by the parser, and their buffer encoding.  These are
specification-side devices used to state what the parser produces; the
parser definitions above never mention them.
-/

mutual

inductive JVal where
  | jnull
  | jtrue
  | jfalse
  | num (q : ℚ)
  | str (bs : List Nat)
  | arr (xs : JList)
  | obj (ps : JPairs)

inductive JList where
  | nil
  | cons (v : JVal) (t : JList)

inductive JPairs where
  | nil
  | cons (k : JVal) (v : JVal) (t : JPairs)

end

def JList.len : JList → Nat
  | .nil => 0
  | .cons _ t => JList.len t + 1

def JPairs.len : JPairs → Nat
  | .nil => 0
  | .cons _ _ t => JPairs.len t + 1

mutual

/-- The buffer encoding of a value: tag word, then the payload of §3. -/
def encB : JVal → List W
  | .jnull => [W.n NULLc]
  | .jtrue => [W.n TRUEc]
  | .jfalse => [W.n FALSEc]
  | .num q => [W.n NUMBERc, W.d q, W.dp]
  | .str bs => W.n STRINGc :: pack4s (padTail bs)
  | .arr xs => W.n ARRAYc :: W.n xs.len :: encL xs
  | .obj ps => W.n OBJECTc :: W.n ps.len :: encP ps

def encL : JList → List W
  | .nil => []
  | .cons v t => encB v ++ encL t

def encP : JPairs → List W
  | .nil => []
  | .cons k v t => encB k ++ encB v ++ encP t

end

mutual

/-- Every string body byte of the value satisfies `Q`. -/
def SGood (Q : Nat → Prop) : JVal → Prop
  | .jnull => True
  | .jtrue => True
  | .jfalse => True
  | .num _ => True
  | .str bs => ∀ b ∈ bs, Q b
  | .arr xs => SGoodL Q xs
  | .obj ps => SGoodP Q ps

def SGoodL (Q : Nat → Prop) : JList → Prop
  | .nil => True
  | .cons v t => SGood Q v ∧ SGoodL Q t

def SGoodP (Q : Nat → Prop) : JPairs → Prop
  | .nil => True
  | .cons k v t => SGood Q k ∧ SGood Q v ∧ SGoodP Q t

end

theorem encB_null : encB .jnull = [W.n NULLc] := by rw [encB]
theorem encB_true : encB .jtrue = [W.n TRUEc] := by rw [encB]
theorem encB_false : encB .jfalse = [W.n FALSEc] := by rw [encB]
theorem encB_num (q : ℚ) : encB (.num q) = [W.n NUMBERc, W.d q, W.dp] := by
  rw [encB]
theorem encB_str (bs : List Nat) :
    encB (.str bs) = W.n STRINGc :: pack4s (padTail bs) := by rw [encB]
theorem encB_arr (xs : JList) :
    encB (.arr xs) = W.n ARRAYc :: W.n xs.len :: encL xs := by rw [encB]
theorem encB_obj (ps : JPairs) :
    encB (.obj ps) = W.n OBJECTc :: W.n ps.len :: encP ps := by rw [encB]
theorem encL_nil : encL .nil = [] := by rw [encL]
theorem encL_cons (v : JVal) (t : JList) :
    encL (.cons v t) = encB v ++ encL t := by rw [encL]
theorem encP_nil : encP .nil = [] := by rw [encP]
theorem encP_cons (k v : JVal) (t : JPairs) :
    encP (.cons k v t) = encB k ++ encB v ++ encP t := by rw [encP]

/-!
## Basic lemmas
-/

theorem byteOf_lt (c : Int) : byteOf c < 256 := by
  have h1 : c % 256 < 256 := Int.emod_lt_of_pos c (by norm_num)
  have h0 : 0 ≤ c % 256 := Int.emod_nonneg c (by norm_num)
  simp only [byteOf]
  omega

theorem byteOf_of_range (c : Int) (h0 : 0 ≤ c) (h1 : c < 256) :
    (byteOf c : Int) = c := by
  simp only [byteOf]
  rw [Int.emod_eq_of_lt h0 h1]
  exact Int.toNat_of_nonneg h0

theorem wsMem_neg_one : wsMem (-1) = false := by decide

/-- Characterisation of `jstream_next`: it discards the maximal whitespace
    prefix and either stores the first non-whitespace character or reports
    end of stream as `-1`. -/
theorem next_spec (inp : List Int) (cl : Int) (o : List W) :
    (∃ wsr c r, inp = wsr ++ c :: r ∧ (∀ x ∈ wsr, wsMem x = true) ∧
       wsMem c = false ∧ jstream_next ⟨inp, cl, o⟩ = ⟨r, c, o⟩) ∨
    ((∀ x ∈ inp, wsMem x = true) ∧ jstream_next ⟨inp, cl, o⟩ = ⟨[], -1, o⟩) := by
  induction inp generalizing cl with
  | nil => exact Or.inr ⟨by simp, by simp [jstream_next, nextGo]⟩
  | cons c r ih =>
    by_cases hc : wsMem c = true
    · have hrw : jstream_next ⟨c :: r, cl, o⟩ = jstream_next ⟨r, cl, o⟩ := by
        simp [jstream_next, nextGo, hc]
      rcases ih cl with ⟨wsr, c', r', he, hws, hnc, hrun⟩ | ⟨hws, hrun⟩
      · refine Or.inl ⟨c :: wsr, c', r', by simp [he], ?_, hnc, hrw.trans hrun⟩
        intro x hx
        rcases List.mem_cons.mp hx with h | h
        · exact h ▸ hc
        · exact hws x h
      · refine Or.inr ⟨?_, hrw.trans hrun⟩
        intro x hx
        rcases List.mem_cons.mp hx with h | h
        · exact h ▸ hc
        · exact hws x h
    · exact Or.inl ⟨[], c, r, by simp, by simp,
        by simpa using hc, by simp [jstream_next, nextGo, hc]⟩

theorem next_obj (s : St) : (jstream_next s).obj = s.obj := by
  obtain ⟨inp, cl, o⟩ := s
  rcases next_spec inp cl o with ⟨_, _, _, _, _, _, hrun⟩ | ⟨_, hrun⟩ <;>
    simp [hrun]

theorem next_suffix (s : St) : ∃ cs, s.input = cs ++ (jstream_next s).input := by
  obtain ⟨inp, cl, o⟩ := s
  rcases next_spec inp cl o with ⟨wsr, c, r, he, _, _, hrun⟩ | ⟨_, hrun⟩
  · rw [hrun]
    exact ⟨wsr ++ [c], by simp [he]⟩
  · rw [hrun]
    exact ⟨inp, by simp⟩

/-- The concatenated byte stream of packed string-payload words. -/
def bytesSeq : List W → List Nat
  | W.chs b0 b1 b2 b3 :: r => b0 :: b1 :: b2 :: b3 :: bytesSeq r
  | _ => []

theorem strBytes_eq_takeWhile (l : List W) :
    strBytes l = (bytesSeq l).takeWhile (fun b => b ≠ 0) := by
  induction l with
  | nil => rfl
  | cons w r ih =>
    cases w with
    | chs b0 b1 b2 b3 =>
      by_cases h0 : b0 = 0
      · simp [strBytes, bytesSeq, h0, List.takeWhile]
      · by_cases h1 : b1 = 0
        · simp [strBytes, bytesSeq, h0, h1, List.takeWhile]
        · by_cases h2 : b2 = 0
          · simp [strBytes, bytesSeq, h0, h1, h2, List.takeWhile]
          · by_cases h3 : b3 = 0
            · simp [strBytes, bytesSeq, h0, h1, h2, h3, List.takeWhile]
            · simp [strBytes, bytesSeq, h0, h1, h2, h3, List.takeWhile, ih]
    | n v => rfl
    | d q => rfl
    | dp => rfl

theorem takeWhile_append_of_all {p : Nat → Bool} {a b : List Nat}
    (h : ∀ x ∈ a, p x = true) :
    (a ++ b).takeWhile p = a ++ b.takeWhile p := by
  induction a with
  | nil => simp
  | cons x t ih =>
    have hx := h x (by simp)
    simp only [List.cons_append, List.takeWhile_cons, hx]
    simp [ih fun y hy => h y (by simp [hy])]

theorem pack4s_append {a : List Nat} (b : List Nat) (h : 4 ∣ a.length) :
    pack4s (a ++ b) = pack4s a ++ pack4s b := by
  induction a using pack4s.induct with
  | case1 b0 b1 b2 b3 r ih =>
    simp only [List.length_cons] at h
    have h4 : 4 ∣ r.length := by omega
    simp [pack4s, ih h4]
  | case2 a ha =>
    match a, ha with
    | [], _ => rfl
    | [x], h1 => simp only [List.length_cons, List.length_nil] at h; omega
    | [x, y], h1 => simp only [List.length_cons, List.length_nil] at h; omega
    | [x, y, z], h1 =>
      simp only [List.length_cons, List.length_nil] at h; omega
    | b0 :: b1 :: b2 :: b3 :: r, h1 => exact absurd rfl (h1 b0 b1 b2 b3 r)

theorem bytesSeq_pack4s_append (a : List Nat) (r : List W) (h : 4 ∣ a.length) :
    bytesSeq (pack4s a ++ r) = a ++ bytesSeq r := by
  induction a using pack4s.induct with
  | case1 b0 b1 b2 b3 t ih =>
    simp only [List.length_cons] at h
    have h4 : 4 ∣ t.length := by omega
    simp [pack4s, bytesSeq, ih h4]
  | case2 a ha =>
    match a, ha with
    | [], _ => rfl
    | [x], h1 => simp only [List.length_cons, List.length_nil] at h; omega
    | [x, y], h1 => simp only [List.length_cons, List.length_nil] at h; omega
    | [x, y, z], h1 =>
      simp only [List.length_cons, List.length_nil] at h; omega
    | b0 :: b1 :: b2 :: b3 :: r', h1 => exact absurd rfl (h1 b0 b1 b2 b3 r')

theorem padTail_length (bs : List Nat) :
    (padTail bs).length = 4 * jstream_align (bs.length + 1) := by
  simp only [padTail, List.length_append, List.length_replicate,
    List.length_cons, List.length_nil, jstream_align]
  split <;> omega

theorem padTail_dvd (bs : List Nat) : 4 ∣ (padTail bs).length := by
  rw [padTail_length]
  exact ⟨_, rfl⟩

theorem pack4s_length {a : List Nat} (h : 4 ∣ a.length) :
    (pack4s a).length = a.length / 4 := by
  induction a using pack4s.induct with
  | case1 b0 b1 b2 b3 t ih =>
    simp only [List.length_cons] at h
    have h4 : 4 ∣ t.length := by omega
    simp only [pack4s, List.length_cons, ih h4]
    omega
  | case2 a ha =>
    match a, ha with
    | [], _ => rfl
    | [x], h1 => simp only [List.length_cons, List.length_nil] at h; omega
    | [x, y], h1 => simp only [List.length_cons, List.length_nil] at h; omega
    | [x, y, z], h1 =>
      simp only [List.length_cons, List.length_nil] at h; omega
    | b0 :: b1 :: b2 :: b3 :: r, h1 => exact absurd rfl (h1 b0 b1 b2 b3 r)

/-- The `strlen`-visible bytes of an encoded string payload followed by
    anything: exactly the body, provided the body is NUL-free. -/
theorem strBytes_encoded (bs : List Nat) (r : List W) (h : ∀ b ∈ bs, b ≠ 0) :
    strBytes (pack4s (padTail bs) ++ r) = bs := by
  rw [strBytes_eq_takeWhile, bytesSeq_pack4s_append _ _ (padTail_dvd bs)]
  simp only [padTail, List.append_assoc]
  rw [takeWhile_append_of_all (by simpa using h)]
  simp [List.takeWhile]

theorem takeWhile_append_all {α : Type} {p : α → Bool} {a b : List α}
    (h : ∀ x ∈ a, p x = true) :
    (a ++ b).takeWhile p = a ++ b.takeWhile p := by
  induction a with
  | nil => simp
  | cons x t ih =>
    have hx := h x (by simp)
    simp only [List.cons_append, List.takeWhile_cons, hx]
    simp [ih fun y hy => h y (by simp [hy])]

theorem padTail_append_left {x : List Nat} (y : List Nat) (h : 4 ∣ x.length) :
    padTail (x ++ y) = x ++ padTail y := by
  simp only [padTail, List.append_assoc, List.length_append]
  obtain ⟨k, hk⟩ := h
  have : (x.length + y.length + 1) % 4 = (y.length + 1) % 4 := by omega
  rw [this]

theorem drop_string_payload (bs : List Nat) (r : List W) (h : ∀ b ∈ bs, b ≠ 0) :
    (pack4s (padTail bs) ++ r).drop
      (jstream_align (strlenB (pack4s (padTail bs) ++ r) + 1)) = r := by
  have hl : strlenB (pack4s (padTail bs) ++ r) = bs.length := by
    simp [strlenB, strBytes_encoded bs r h]
  rw [hl]
  have hlen : (pack4s (padTail bs)).length = jstream_align (bs.length + 1) := by
    rw [pack4s_length (padTail_dvd bs), padTail_length]
    omega
  rw [← hlen, List.drop_left]

/-!
## Characterisation of the string handler
-/

/-- A character the string scanner stores: not the closing quote (int
    comparison) and not negative. -/
def sChr (c : Int) : Bool := c ≠ 34 && 0 ≤ c

/-- The bytes `jstream_string` stores for a scanned body: full 64-byte
    chunks are flushed verbatim, the final partial chunk is truncated by
    `strcpy` at its first NUL byte. -/
def storedStr (bs : List Nat) : List Nat :=
  if h : bs.length < 64 then bs.takeWhile (fun b => b ≠ 0)
  else bs.take 64 ++ storedStr (bs.drop 64)
termination_by bs.length
decreasing_by simp; omega

theorem storedStr_of_nulFree (bs : List Nat) (h : ∀ b ∈ bs, b ≠ 0) :
    storedStr bs = bs := by
  induction bs using storedStr.induct with
  | case1 bs hlt =>
    rw [storedStr, dif_pos hlt]
    exact List.takeWhile_eq_self_iff.mpr (by simpa using h)
  | case2 bs hge ih =>
    rw [storedStr, dif_neg hge]
    rw [ih fun b hb => h b (List.mem_of_mem_drop hb)]
    exact List.take_append_drop 64 bs

theorem strLoop_full (k : Nat) :
    ∀ (inp : List Int) (cl : Int) (o : List W) (acc : List Nat),
      k ≤ (inp.takeWhile sChr).length →
      ∃ cl', strLoop k ⟨inp, cl, o⟩ acc =
        .ok (false, acc ++ (inp.take k).map byteOf, ⟨inp.drop k, cl', o⟩) := by
  induction k with
  | zero => intro inp cl o acc _; exact ⟨cl, by simp [strLoop]⟩
  | succ k ih =>
    intro inp cl o acc hk
    match inp with
    | [] => simp at hk
    | c :: r =>
      have hc : sChr c = true := by
        by_contra hc
        simp [List.takeWhile_cons, Bool.not_eq_true _ ▸ hc,
          (Bool.not_eq_true (sChr c)).mp hc] at hk
      have h34 : c ≠ 34 := by
        simpa [sChr] using (Bool.and_eq_true _ _ |>.mp hc).1
      have hnn : 0 ≤ c := by
        have := (Bool.and_eq_true _ _ |>.mp hc).2
        simpa [sChr] using this
      have hk' : k ≤ (r.takeWhile sChr).length := by
        simpa [List.takeWhile_cons, hc] using hk
      obtain ⟨cl', hrun⟩ := ih r c o (acc ++ [byteOf c]) hk'
      refine ⟨cl', ?_⟩
      simp only [strLoop, get, h34, if_neg (by omega : ¬ c < 0)]
      rw [if_neg (by simpa using h34)]
      rw [hrun]
      simp [List.append_assoc]


theorem strLoop_quote (k : Nat) :
    ∀ (a r : List Int) (cl : Int) (o : List W) (acc : List Nat),
      (∀ c ∈ a, sChr c = true) → a.length < k →
      strLoop k ⟨a ++ 34 :: r, cl, o⟩ acc =
        .ok (true, acc ++ a.map byteOf, ⟨r, 34, o⟩) := by
  induction k with
  | zero => intro a r cl o acc _ h; omega
  | succ k ih =>
    intro a r cl o acc hall hlen
    match a with
    | [] => simp [strLoop, get]
    | c :: t =>
      have hc := hall c (by simp)
      have h34 : c ≠ 34 := by
        simpa [sChr] using (Bool.and_eq_true _ _ |>.mp hc).1
      have hnn : 0 ≤ c := by
        have := (Bool.and_eq_true _ _ |>.mp hc).2
        simpa [sChr] using this
      have := ih t r c o (acc ++ [byteOf c])
        (fun x hx => hall x (by simp [hx]))
        (by simp only [List.length_cons] at hlen; omega)
      simp only [List.cons_append, strLoop, get, h34,
        if_neg (by omega : ¬ c < 0)]
      rw [if_neg (by simpa using h34)]
      rw [this]
      simp [List.append_assoc]

theorem strLoop_eos (k : Nat) :
    ∀ (inp : List Int) (cl : Int) (o : List W) (acc : List Nat),
      (inp.takeWhile sChr).length < k →
      (inp.drop (inp.takeWhile sChr).length = [] ∨
        ∃ c r, inp.drop (inp.takeWhile sChr).length = c :: r ∧ c < 0) →
      strLoop k ⟨inp, cl, o⟩ acc = .error .eosInsideString := by
  induction k with
  | zero => intro inp cl o acc h _; omega
  | succ k ih =>
    intro inp cl o acc hlen hstop
    match inp with
    | [] => simp [strLoop, get]
    | c :: t =>
      by_cases hc : sChr c = true
      · have h34 : c ≠ 34 := by
          simpa [sChr] using (Bool.and_eq_true _ _ |>.mp hc).1
        have hnn : 0 ≤ c := by
          have := (Bool.and_eq_true _ _ |>.mp hc).2
          simpa [sChr] using this
        have hlen' : (t.takeWhile sChr).length < k := by
          simp only [List.takeWhile_cons, hc, if_true, List.length_cons] at hlen
          omega
        have hstop' : t.drop (t.takeWhile sChr).length = [] ∨
            ∃ c' r, t.drop (t.takeWhile sChr).length = c' :: r ∧ c' < 0 := by
          simpa [List.takeWhile_cons, hc] using hstop
        simp only [strLoop, get, h34, if_neg (by omega : ¬ c < 0)]
        rw [if_neg (by simpa using h34)]
        exact ih t c o (acc ++ [byteOf c]) hlen' hstop'
      · have hcases : c = 34 ∨ c < 0 := by
          by_contra hcon
          push_neg at hcon
          exact hc (by simp [sChr, hcon.1, hcon.2])
        rcases hcases with h34 | hneg
        · exfalso
          have h0 : (List.takeWhile sChr (c :: t)).length = 0 := by
            simp [List.takeWhile_cons, hc]
          rw [h0, List.drop_zero] at hstop
          rcases hstop with h | ⟨c', r, he, hneg'⟩
          · exact absurd h (by simp)
          · injection he with h1 _
            omega
        · have h34 : c ≠ 34 := by omega
          simp only [strLoop, get, h34]
          rw [if_neg (by simpa using h34)]
          simp [if_pos hneg]

theorem strOuter_ok (f : Nat) :
    ∀ (a r : List Int) (cl : Int) (o : List W),
      (∀ c ∈ a, sChr c = true) → a.length / 64 + 1 ≤ f →
      strOuter f ⟨a ++ 34 :: r, cl, o⟩ =
        .ok (jstream_next ⟨r, 34, o ++ pack4s (padTail (storedStr (a.map byteOf)))⟩) := by
  induction f with
  | zero => intro a r cl o _ h; omega
  | succ f ih =>
    intro a r cl o hall hf
    by_cases hlt : a.length < 64
    · have hq := strLoop_quote 64 a r cl o [] hall hlt
      simp only [strOuter, hq, List.nil_append]
      have hst : storedStr (a.map byteOf) = (a.map byteOf).takeWhile (fun b => b ≠ 0) := by
        rw [storedStr]
        exact dif_pos (by simpa using hlt)
      rw [hst]
    · push_neg at hlt
      have htw : 64 ≤ ((a ++ 34 :: r).takeWhile sChr).length := by
        rw [takeWhile_append_all hall]
        simp only [List.length_append]
        omega
      obtain ⟨cl', hfull⟩ := strLoop_full 64 (a ++ 34 :: r) cl o [] htw
      have htake : (a ++ 34 :: r).take 64 = a.take 64 :=
        List.take_append_of_le_length hlt
      have hdrop : (a ++ 34 :: r).drop 64 = a.drop 64 ++ 34 :: r :=
        List.drop_append_of_le_length hlt
      simp only [strOuter, hfull, List.nil_append, htake, hdrop]
      have ihall : ∀ c ∈ a.drop 64, sChr c = true :=
        fun c hc => hall c (List.mem_of_mem_drop hc)
      have ihfuel : (a.drop 64).length / 64 + 1 ≤ f := by
        simp only [List.length_drop]
        omega
      rw [ih (a.drop 64) r cl' (o ++ pack4s ((a.take 64).map byteOf)) ihall ihfuel]
      have hsplit : storedStr (a.map byteOf) =
          (a.take 64).map byteOf ++ storedStr ((a.drop 64).map byteOf) := by
        rw [storedStr]
        rw [dif_neg (by simp; omega)]
        rw [← List.map_take, ← List.map_drop]
      rw [hsplit]
      have h64 : 4 ∣ ((a.take 64).map byteOf).length := by
        simp only [List.length_map, List.length_take]
        omega
      rw [padTail_append_left _ h64, pack4s_append _ h64]
      simp [List.append_assoc]

theorem takeWhile_drop_of_le {α : Type} (p : α → Bool) :
    ∀ (k : Nat) (l : List α), k ≤ (l.takeWhile p).length →
      (l.drop k).takeWhile p = (l.takeWhile p).drop k := by
  intro k
  induction k with
  | zero => intro l _; simp
  | succ k ih =>
    intro l h
    match l with
    | [] => simp at h
    | c :: t =>
      by_cases hc : p c = true
      · simp only [List.takeWhile_cons, hc, if_true, List.length_cons] at h
        simp only [List.drop_succ_cons, List.takeWhile_cons, hc, if_true]
        exact ih t (by omega)
      · simp [List.takeWhile_cons, hc] at h

theorem strOuter_eos (f : Nat) :
    ∀ (inp : List Int) (cl : Int) (o : List W),
      (inp.drop (inp.takeWhile sChr).length = [] ∨
        ∃ c r, inp.drop (inp.takeWhile sChr).length = c :: r ∧ c < 0) →
      (inp.takeWhile sChr).length / 64 + 1 ≤ f →
      strOuter f ⟨inp, cl, o⟩ = .error .eosInsideString := by
  induction f with
  | zero => intro inp cl o _ h; omega
  | succ f ih =>
    intro inp cl o hstop hf
    by_cases hlt : (inp.takeWhile sChr).length < 64
    · have := strLoop_eos 64 inp cl o [] hlt hstop
      simp [strOuter, this]
    · push_neg at hlt
      obtain ⟨cl', hfull⟩ := strLoop_full 64 inp cl o [] hlt
      simp only [strOuter, hfull]
      have htwdrop : (inp.drop 64).takeWhile sChr = (inp.takeWhile sChr).drop 64 :=
        takeWhile_drop_of_le sChr 64 inp hlt
      apply ih
      · rw [htwdrop]
        have hde : (inp.drop 64).drop ((inp.takeWhile sChr).drop 64).length =
            inp.drop (inp.takeWhile sChr).length := by
          rw [List.drop_drop, List.length_drop]
          congr 1
          omega
        rw [hde]
        exact hstop
      · rw [htwdrop]
        simp only [List.length_drop]
        omega

/-- `jstream_string` on a body terminated by a quote: the stored payload is
    the chunked-and-truncated image of the body, then whitespace is
    skipped. -/
theorem jstream_string_ok (a r : List Int) (cl : Int) (o : List W)
    (hall : ∀ c ∈ a, sChr c = true) :
    jstream_string ⟨a ++ 34 :: r, cl, o⟩ =
      .ok (jstream_next
        ⟨r, 34, (o ++ [W.n STRINGc]) ++ pack4s (padTail (storedStr (a.map byteOf)))⟩) := by
  apply strOuter_ok _ a r cl (o ++ [W.n STRINGc]) hall
  show a.length / 64 + 1 ≤ (a ++ 34 :: r).length + 1
  simp only [List.length_append, List.length_cons]
  have := Nat.div_le_self a.length 64
  omega

/-- `jstream_string` when the scan meets end of stream or a negative
    character before the closing quote. -/
theorem jstream_string_eos (inp : List Int) (cl : Int) (o : List W)
    (hstop : inp.drop (inp.takeWhile sChr).length = [] ∨
      ∃ c r, inp.drop (inp.takeWhile sChr).length = c :: r ∧ c < 0) :
    jstream_string ⟨inp, cl, o⟩ = .error .eosInsideString := by
  apply strOuter_eos _ inp cl (o ++ [W.n STRINGc]) hstop
  show (inp.takeWhile sChr).length / 64 + 1 ≤ inp.length + 1
  have h1 : (inp.takeWhile sChr).length ≤ inp.length :=
    (List.takeWhile_prefix sChr).length_le
  have := Nat.div_le_self (inp.takeWhile sChr).length 64
  omega

/-!
## Characterisation of the number handler
-/

/-- The `clast` value after the numeral scan: the terminating character as
    a `char` (`p->clast = buf[i]`), `-1` at end of stream. -/
def numTermC (inp : List Int) : Int :=
  match inp.drop (inp.takeWhile numMem).length with
  | c :: _ => charOf c
  | [] => -1

theorem numLoop_long (k : Nat) :
    ∀ (inp : List Int) (cl : Int) (o : List W) (acc : List Nat),
      k ≤ (inp.takeWhile numMem).length →
      numLoop k ⟨inp, cl, o⟩ acc = .error .numberTooLong := by
  induction k with
  | zero => intro inp cl o acc _; rfl
  | succ k ih =>
    intro inp cl o acc hk
    match inp with
    | [] => simp at hk
    | c :: t =>
      have hc : numMem c = true := by
        by_contra hc
        simp [List.takeWhile_cons, (Bool.not_eq_true (numMem c)).mp hc] at hk
      simp only [List.takeWhile_cons, hc, if_true, List.length_cons] at hk
      simp only [numLoop, get, hc, if_true]
      exact ih t c o (acc ++ [byteOf c]) (by omega)

theorem numLoop_ok (k : Nat) :
    ∀ (inp : List Int) (cl : Int) (o : List W) (acc : List Nat),
      (inp.takeWhile numMem).length < k →
      numLoop k ⟨inp, cl, o⟩ acc =
        .ok (acc ++ (inp.takeWhile numMem).map byteOf,
          ⟨inp.drop ((inp.takeWhile numMem).length + 1), numTermC inp, o⟩) := by
  induction k with
  | zero => intro inp cl o acc h; omega
  | succ k ih =>
    intro inp cl o acc hk
    match inp with
    | [] =>
      have hnm : numMem (-1) = false := by decide
      have hco : charOf (-1) = -1 := by decide
      simp [numLoop, get, numTermC, hnm, hco]
    | c :: t =>
      by_cases hc : numMem c = true
      · simp only [List.takeWhile_cons, hc, if_true, List.length_cons] at hk
        simp only [numLoop, get, hc, if_true]
        rw [ih t c o (acc ++ [byteOf c]) (by omega)]
        have hterm : numTermC (c :: t) = numTermC t := by
          simp [numTermC, List.takeWhile_cons, hc]
        simp [List.takeWhile_cons, hc, hterm, List.append_assoc]
      · have hc' := (Bool.not_eq_true (numMem c)).mp hc
        simp only [numLoop, get, hc', Bool.false_eq_true, if_false]
        simp [numTermC, List.takeWhile_cons, hc']

/-- `jstream_number` when the numeral tail is over-long: 127 further
    numeral characters overrun the 128-byte scratch buffer. -/
theorem jstream_number_long (s : St)
    (h : 127 ≤ (s.input.takeWhile numMem).length) :
    jstream_number s = .error .numberTooLong := by
  obtain ⟨inp, cl, o⟩ := s
  simp only [jstream_number]
  rw [numLoop_long 127 inp cl o [byteOf cl] h]

/-- `jstream_number` below the scratch bound: the accumulated text is read
    as a C string (up to its first NUL byte) by `strtod` and `strlen`; a
    partial conversion is the number error, otherwise the tag and payload
    are emitted and whitespace skipped. -/
theorem jstream_number_spec (inp : List Int) (cl : Int) (o : List W)
    (h : (inp.takeWhile numMem).length < 127) :
    jstream_number ⟨inp, cl, o⟩ =
      if (strtodM (cstrOf
            (byteOf cl :: (inp.takeWhile numMem).map byteOf))).2 ≠
          (cstrOf (byteOf cl :: (inp.takeWhile numMem).map
            byteOf)).length then
        .error .number
      else if wsMem (numTermC inp) then
        .ok (jstream_next ⟨inp.drop ((inp.takeWhile numMem).length + 1),
          numTermC inp,
          o ++ [W.n NUMBERc,
            W.d (strtodM (cstrOf
              (byteOf cl :: (inp.takeWhile numMem).map byteOf))).1,
            W.dp]⟩)
      else
        .ok (⟨inp.drop ((inp.takeWhile numMem).length + 1), numTermC inp,
          o ++ [W.n NUMBERc,
            W.d (strtodM (cstrOf
              (byteOf cl :: (inp.takeWhile numMem).map byteOf))).1,
            W.dp]⟩ : St) := by
  simp only [jstream_number]
  rw [numLoop_ok 127 inp cl o [byteOf cl] h]
  by_cases hchk :
      (strtodM (cstrOf (byteOf cl :: (inp.takeWhile numMem).map byteOf))).2 =
      (cstrOf (byteOf cl :: (inp.takeWhile numMem).map byteOf)).length
  · by_cases hw : wsMem (numTermC inp) = true <;>
      simp [hchk, hw]
  · simp [hchk]

/-!
## Characterisation of the literal handlers
-/

theorem jstream_true_ok (c : Int) (rest : List Int) (cl : Int) (o : List W)
    (hc : followMem c = true) :
    jstream_true ⟨114 :: 117 :: 101 :: c :: rest, cl, o⟩ =
      .ok (if wsMem c then jstream_next ⟨rest, c, o ++ [W.n TRUEc]⟩
           else ⟨rest, c, o ++ [W.n TRUEc]⟩) := by
  by_cases hw : wsMem c = true <;>
    simp [jstream_true, get, hc, hw]

theorem jstream_false_ok (c : Int) (rest : List Int) (cl : Int) (o : List W)
    (hc : followMem c = true) :
    jstream_false ⟨97 :: 108 :: 115 :: 101 :: c :: rest, cl, o⟩ =
      .ok (if wsMem c then jstream_next ⟨rest, c, o ++ [W.n FALSEc]⟩
           else ⟨rest, c, o ++ [W.n FALSEc]⟩) := by
  by_cases hw : wsMem c = true <;>
    simp [jstream_false, get, hc, hw]

theorem jstream_null_ok (c : Int) (rest : List Int) (cl : Int) (o : List W)
    (hc : followMem c = true) :
    jstream_null ⟨117 :: 108 :: 108 :: c :: rest, cl, o⟩ =
      .ok (if wsMem c then jstream_next ⟨rest, c, o ++ [W.n NULLc]⟩
           else ⟨rest, c, o ++ [W.n NULLc]⟩) := by
  by_cases hw : wsMem c = true <;>
    simp [jstream_null, get, hc, hw]

/-- `jstream_true` succeeds exactly on `rue` followed by a `strchr`-accepted
    follower (whitespace, one of `]},:`, or the NUL byte); in particular it
    fails at end of stream. -/
theorem jstream_true_iff (s : St) :
    (∃ s', jstream_true s = .ok s') ↔
      (∃ c rest, s.input = 114 :: 117 :: 101 :: c :: rest ∧
        followMem c = true) := by
  obtain ⟨inp, cl, o⟩ := s
  constructor
  · rintro ⟨s', hs'⟩
    match inp with
    | [] => simp [jstream_true, get] at hs'
    | [c1] =>
      by_cases h1 : c1 = 114 <;> simp [jstream_true, get, h1] at hs'
    | [c1, c2] =>
      by_cases h1 : c1 = 114 <;> by_cases h2 : c2 = 117 <;>
        simp [jstream_true, get, h1, h2] at hs'
    | [c1, c2, c3] =>
      by_cases h1 : c1 = 114 <;> by_cases h2 : c2 = 117 <;>
        by_cases h3 : c3 = 101 <;>
        simp [jstream_true, get, h1, h2, h3, followMem, byteOf] at hs'
    | c1 :: c2 :: c3 :: c4 :: rest =>
      by_cases h1 : c1 = 114
      · by_cases h2 : c2 = 117
        · by_cases h3 : c3 = 101
          · by_cases h4 : followMem c4 = true
            · exact ⟨c4, rest, by rw [h1, h2, h3], h4⟩
            · simp [jstream_true, get, h1, h2, h3, h4] at hs'
          · simp [jstream_true, get, h1, h2, h3] at hs'
        · simp [jstream_true, get, h1, h2] at hs'
      · simp [jstream_true, get, h1] at hs'
  · rintro ⟨c, rest, he, hc⟩
    subst he
    rw [jstream_true_ok c rest cl o hc]
    exact ⟨_, rfl⟩

/-- `jstream_false` succeeds exactly on `alse` followed by a
    `strchr`-accepted follower. -/
theorem jstream_false_iff (s : St) :
    (∃ s', jstream_false s = .ok s') ↔
      (∃ c rest, s.input = 97 :: 108 :: 115 :: 101 :: c :: rest ∧
        followMem c = true) := by
  obtain ⟨inp, cl, o⟩ := s
  constructor
  · rintro ⟨s', hs'⟩
    match inp with
    | [] => simp [jstream_false, get] at hs'
    | [c1] =>
      by_cases h1 : c1 = 97 <;> simp [jstream_false, get, h1] at hs'
    | [c1, c2] =>
      by_cases h1 : c1 = 97 <;> by_cases h2 : c2 = 108 <;>
        simp [jstream_false, get, h1, h2] at hs'
    | [c1, c2, c3] =>
      by_cases h1 : c1 = 97 <;> by_cases h2 : c2 = 108 <;>
        by_cases h3 : c3 = 115 <;>
        simp [jstream_false, get, h1, h2, h3] at hs'
    | [c1, c2, c3, c4] =>
      by_cases h1 : c1 = 97 <;> by_cases h2 : c2 = 108 <;>
        by_cases h3 : c3 = 115 <;> by_cases h4 : c4 = 101 <;>
        simp [jstream_false, get, h1, h2, h3, h4, followMem, byteOf] at hs'
    | c1 :: c2 :: c3 :: c4 :: c5 :: rest =>
      by_cases h1 : c1 = 97
      · by_cases h2 : c2 = 108
        · by_cases h3 : c3 = 115
          · by_cases h4 : c4 = 101
            · by_cases h5 : followMem c5 = true
              · exact ⟨c5, rest, by rw [h1, h2, h3, h4], h5⟩
              · simp [jstream_false, get, h1, h2, h3, h4, h5] at hs'
            · simp [jstream_false, get, h1, h2, h3, h4] at hs'
          · simp [jstream_false, get, h1, h2, h3] at hs'
        · simp [jstream_false, get, h1, h2] at hs'
      · simp [jstream_false, get, h1] at hs'
  · rintro ⟨c, rest, he, hc⟩
    subst he
    rw [jstream_false_ok c rest cl o hc]
    exact ⟨_, rfl⟩

/-- `jstream_null` succeeds exactly on `ull` followed by a `strchr`-accepted
    follower. -/
theorem jstream_null_iff (s : St) :
    (∃ s', jstream_null s = .ok s') ↔
      (∃ c rest, s.input = 117 :: 108 :: 108 :: c :: rest ∧
        followMem c = true) := by
  obtain ⟨inp, cl, o⟩ := s
  constructor
  · rintro ⟨s', hs'⟩
    match inp with
    | [] => simp [jstream_null, get] at hs'
    | [c1] =>
      by_cases h1 : c1 = 117 <;> simp [jstream_null, get, h1] at hs'
    | [c1, c2] =>
      by_cases h1 : c1 = 117 <;> by_cases h2 : c2 = 108 <;>
        simp [jstream_null, get, h1, h2] at hs'
    | [c1, c2, c3] =>
      by_cases h1 : c1 = 117 <;> by_cases h2 : c2 = 108 <;>
        by_cases h3 : c3 = 108 <;>
        simp [jstream_null, get, h1, h2, h3, followMem, byteOf] at hs'
    | c1 :: c2 :: c3 :: c4 :: rest =>
      by_cases h1 : c1 = 117
      · by_cases h2 : c2 = 108
        · by_cases h3 : c3 = 108
          · by_cases h4 : followMem c4 = true
            · exact ⟨c4, rest, by rw [h1, h2, h3], h4⟩
            · simp [jstream_null, get, h1, h2, h3, h4] at hs'
          · simp [jstream_null, get, h1, h2, h3] at hs'
        · simp [jstream_null, get, h1, h2] at hs'
      · simp [jstream_null, get, h1] at hs'
  · rintro ⟨c, rest, he, hc⟩
    subst he
    rw [jstream_null_ok c rest cl o hc]
    exact ⟨_, rfl⟩

/-- The only error `jstream_true` can raise is its own code. -/
theorem jstream_true_err (s : St) (e : JErr) (h : jstream_true s = .error e) :
    e = .true_ := by
  simp only [jstream_true] at h
  repeat' split at h
  all_goals simp_all

/-- The only error `jstream_false` can raise is its own code. -/
theorem jstream_false_err (s : St) (e : JErr)
    (h : jstream_false s = .error e) : e = .false_ := by
  simp only [jstream_false] at h
  repeat' split at h
  all_goals simp_all

/-- The only error `jstream_null` can raise is its own code. -/
theorem jstream_null_err (s : St) (e : JErr) (h : jstream_null s = .error e) :
    e = .null_ := by
  simp only [jstream_null] at h
  repeat' split at h
  all_goals simp_all

/-!
## The grammar-handler contract

`Exi s s'` is the lookahead-of-one exit contract every successful handler
obeys: the consumed characters are the matched text (ending in a
non-whitespace character, whitespace taken in the scanner's `strchr` sense,
so including NUL), then a run of whitespace, then exactly one non-whitespace
character which is left in `clast` (up to `char` truncation); or the source
was exhausted during the trailing whitespace skip and `clast` is `-1`.
-/

def Exi (s s' : St) : Prop :=
  ∃ core wsr,
    (∀ c ∈ wsr, wsMem c = true) ∧
    (core = [] ∨ ∃ d, core.getLast? = some d ∧ wsMem d = false) ∧
    ((∃ c, s.input = core ++ wsr ++ c :: s'.input ∧ wsMem c = false ∧
        byteOf s'.clast = byteOf c) ∨
     (s.input = core ++ wsr ∧ s'.input = [] ∧ s'.clast = -1))

/-- Every byte stored from a parsed string body arises from a consumed
    nonnegative character that failed the int comparison with `'"'`. -/
def QIn (inp : List Int) (b : Nat) : Prop :=
  ∃ c, c ∈ inp ∧ 0 ≤ c ∧ c ≠ 34 ∧ b = byteOf c

theorem exi_input_split {s s' : St} (h : Exi s s') :
    ∃ cs, s.input = cs ++ s'.input := by
  obtain ⟨core, wsr, _, _, hd⟩ := h
  rcases hd with ⟨c, he, _, _⟩ | ⟨he, hnil, _⟩
  · exact ⟨core ++ wsr ++ [c], by simp [he]⟩
  · exact ⟨core ++ wsr, by simp [he, hnil]⟩

theorem exi_next (s : St) (pre mid rest : List Int) (cl : Int) (o : List W)
    (h : s.input = pre ++ mid ++ rest)
    (hd : pre = [] ∨ ∃ d, pre.getLast? = some d ∧ wsMem d = false)
    (hmid : ∀ x ∈ mid, wsMem x = true) :
    Exi s (jstream_next ⟨rest, cl, o⟩) := by
  rcases next_spec rest cl o with ⟨wsr, c, r, he, hws, hnc, hrun⟩ | ⟨hws, hrun⟩
  · refine ⟨pre, mid ++ wsr, ?_, hd, Or.inl ⟨c, ?_, hnc, ?_⟩⟩
    · intro x hx
      rcases List.mem_append.mp hx with hx | hx
      · exact hmid x hx
      · exact hws x hx
    · rw [hrun]
      simp [h, he]
    · rw [hrun]
  · refine ⟨pre, mid ++ rest, ?_, hd, Or.inr ⟨?_, ?_, ?_⟩⟩
    · intro x hx
      rcases List.mem_append.mp hx with hx | hx
      · exact hmid x hx
      · exact hws x hx
    · simp [h]
    · rw [hrun]
    · rw [hrun]

theorem exi_direct (s : St) (pre : List Int) (c : Int) (rest : List Int)
    (s' : St) (h : s.input = pre ++ c :: rest)
    (hd : pre = [] ∨ ∃ d, pre.getLast? = some d ∧ wsMem d = false)
    (hnc : wsMem c = false) (hin : s'.input = rest)
    (hcl : byteOf s'.clast = byteOf c) : Exi s s' :=
  ⟨pre, [], by simp, hd, Or.inl ⟨c, by simp [h, hin], hnc, hcl⟩⟩

theorem last_of_all {p : Int → Bool} {l : List Int} (hp : ∀ x ∈ l, p x = true)
    (hw : ∀ x : Int, p x = true → wsMem x = false) :
    l = [] ∨ ∃ d, l.getLast? = some d ∧ wsMem d = false := by
  match l with
  | [] => exact Or.inl rfl
  | a :: t =>
    refine Or.inr ⟨(a :: t).getLast (by simp), ?_, ?_⟩
    · exact List.getLast?_eq_getLast _ (by simp)
    · exact hw _ (hp _ (List.getLast_mem (by simp)))

theorem byteOf_charOf (c : Int) : byteOf (charOf c) = byteOf c := by
  simp only [byteOf, charOf]
  omega

theorem wsMem_charOf (c : Int) : wsMem (charOf c) = wsMem c := by
  simp only [wsMem, byteOf_charOf]

/-- Split off the maximal whitespace tail: every list is a prefix that is
    empty or ends in a non-whitespace character, followed by a whitespace
    run.  (A numeral run can end in NUL bytes, which the scanner's notion
    of whitespace contains.) -/
theorem split_ws_tail (a : List Int) :
    ∃ core wsr, a = core ++ wsr ∧ (∀ x ∈ wsr, wsMem x = true) ∧
      (core = [] ∨ ∃ d, core.getLast? = some d ∧ wsMem d = false) := by
  induction a using List.reverseRecOn with
  | nil => exact ⟨[], [], rfl, by simp, Or.inl rfl⟩
  | append_singleton a x ih =>
    obtain ⟨core, wsr, hsplit, hws, hd⟩ := ih
    by_cases hx : wsMem x = true
    · refine ⟨core, wsr ++ [x], by rw [hsplit]; simp, ?_, hd⟩
      intro y hy
      rcases List.mem_append.mp hy with hy | hy
      · exact hws y hy
      · simp at hy
        subst hy
        exact hx
    · exact ⟨a ++ [x], [], by simp, by simp,
        Or.inr ⟨x, List.getLast?_concat _, by simpa using hx⟩⟩

theorem exi_direct2 (s : St) (pre mid : List Int) (c : Int) (rest : List Int)
    (s' : St) (h : s.input = pre ++ mid ++ c :: rest)
    (hd : pre = [] ∨ ∃ d, pre.getLast? = some d ∧ wsMem d = false)
    (hmid : ∀ x ∈ mid, wsMem x = true)
    (hnc : wsMem c = false) (hin : s'.input = rest)
    (hcl : byteOf s'.clast = byteOf c) : Exi s s' :=
  ⟨pre, mid, hmid, hd, Or.inl ⟨c, by rw [h, hin], hnc, hcl⟩⟩

theorem storedStr_subset (bs : List Nat) :
    ∀ b ∈ storedStr bs, b ∈ bs := by
  induction bs using storedStr.induct with
  | case1 bs hlt =>
    rw [storedStr, dif_pos hlt]
    intro b hb
    exact (List.takeWhile_prefix _).sublist.subset hb
  | case2 bs hge ih =>
    rw [storedStr, dif_neg hge]
    intro b hb
    rcases List.mem_append.mp hb with hb | hb
    · exact List.mem_of_mem_take hb
    · exact List.mem_of_mem_drop (ih b hb)

mutual

theorem SGood_mono {Q Q' : Nat → Prop} (hq : ∀ b, Q b → Q' b) :
    ∀ v, SGood Q v → SGood Q' v
  | .jnull, _ => trivial
  | .jtrue, _ => trivial
  | .jfalse, _ => trivial
  | .num _, _ => trivial
  | .str bs, h => fun b hb => hq b (h b hb)
  | .arr xs, h => SGoodL_mono hq xs h
  | .obj ps, h => SGoodP_mono hq ps h

theorem SGoodL_mono {Q Q' : Nat → Prop} (hq : ∀ b, Q b → Q' b) :
    ∀ xs, SGoodL Q xs → SGoodL Q' xs
  | .nil, _ => trivial
  | .cons v t, h => ⟨SGood_mono hq v h.1, SGoodL_mono hq t h.2⟩

theorem SGoodP_mono {Q Q' : Nat → Prop} (hq : ∀ b, Q b → Q' b) :
    ∀ ps, SGoodP Q ps → SGoodP Q' ps
  | .nil, _ => trivial
  | .cons k v t, h =>
    ⟨SGood_mono hq k h.1, SGood_mono hq v h.2.1, SGoodP_mono hq t h.2.2⟩

end

theorem QIn_mono {inp inp' : List Int} (h : ∃ cs, inp = cs ++ inp') :
    ∀ b, QIn inp' b → QIn inp b := by
  rintro b ⟨c, hc, h0, h34, hb⟩
  obtain ⟨cs, rfl⟩ := h
  exact ⟨c, List.mem_append_right _ hc, h0, h34, hb⟩

/-!
## Handler main lemmas: output shape, byte provenance, exit contract
-/

theorem jstream_true_main (s s' : St) (h : jstream_true s = .ok s') :
    s'.obj = s.obj ++ [W.n TRUEc] ∧ Exi s s' := by
  obtain ⟨c, rest, he, hc⟩ := (jstream_true_iff s).mp ⟨s', h⟩
  obtain ⟨inp, cl, o⟩ := s
  replace he : inp = 114 :: 117 :: 101 :: c :: rest := he
  subst he
  rw [jstream_true_ok c rest cl o hc] at h
  have hs' : s' = if wsMem c then jstream_next ⟨rest, c, o ++ [W.n TRUEc]⟩
      else ⟨rest, c, o ++ [W.n TRUEc]⟩ := by
    injection h with h
    exact h.symm
  by_cases hw : wsMem c = true
  · rw [if_pos hw] at hs'
    subst hs'
    refine ⟨by rw [next_obj], ?_⟩
    exact exi_next _ [114, 117, 101] [c] rest c (o ++ [W.n TRUEc]) (by simp)
      (Or.inr ⟨101, by simp, by decide⟩) (by simpa using hw)
  · rw [if_neg hw] at hs'
    subst hs'
    refine ⟨rfl, ?_⟩
    exact exi_direct _ [114, 117, 101] c rest _ (by simp)
      (Or.inr ⟨101, by simp, by decide⟩)
      (by simpa using hw) rfl rfl

theorem jstream_false_main (s s' : St) (h : jstream_false s = .ok s') :
    s'.obj = s.obj ++ [W.n FALSEc] ∧ Exi s s' := by
  obtain ⟨c, rest, he, hc⟩ := (jstream_false_iff s).mp ⟨s', h⟩
  obtain ⟨inp, cl, o⟩ := s
  replace he : inp = 97 :: 108 :: 115 :: 101 :: c :: rest := he
  subst he
  rw [jstream_false_ok c rest cl o hc] at h
  have hs' : s' = if wsMem c then jstream_next ⟨rest, c, o ++ [W.n FALSEc]⟩
      else ⟨rest, c, o ++ [W.n FALSEc]⟩ := by
    injection h with h
    exact h.symm
  by_cases hw : wsMem c = true
  · rw [if_pos hw] at hs'
    subst hs'
    refine ⟨by rw [next_obj], ?_⟩
    exact exi_next _ [97, 108, 115, 101] [c] rest c (o ++ [W.n FALSEc])
      (by simp) (Or.inr ⟨101, by simp, by decide⟩) (by simpa using hw)
  · rw [if_neg hw] at hs'
    subst hs'
    refine ⟨rfl, ?_⟩
    exact exi_direct _ [97, 108, 115, 101] c rest _ (by simp)
      (Or.inr ⟨101, by simp, by decide⟩)
      (by simpa using hw) rfl rfl

theorem jstream_null_main (s s' : St) (h : jstream_null s = .ok s') :
    s'.obj = s.obj ++ [W.n NULLc] ∧ Exi s s' := by
  obtain ⟨c, rest, he, hc⟩ := (jstream_null_iff s).mp ⟨s', h⟩
  obtain ⟨inp, cl, o⟩ := s
  replace he : inp = 117 :: 108 :: 108 :: c :: rest := he
  subst he
  rw [jstream_null_ok c rest cl o hc] at h
  have hs' : s' = if wsMem c then jstream_next ⟨rest, c, o ++ [W.n NULLc]⟩
      else ⟨rest, c, o ++ [W.n NULLc]⟩ := by
    injection h with h
    exact h.symm
  by_cases hw : wsMem c = true
  · rw [if_pos hw] at hs'
    subst hs'
    refine ⟨by rw [next_obj], ?_⟩
    exact exi_next _ [117, 108, 108] [c] rest c (o ++ [W.n NULLc]) (by simp)
      (Or.inr ⟨108, by simp, by decide⟩) (by simpa using hw)
  · rw [if_neg hw] at hs'
    subst hs'
    refine ⟨rfl, ?_⟩
    exact exi_direct _ [117, 108, 108] c rest _ (by simp)
      (Or.inr ⟨108, by simp, by decide⟩)
      (by simpa using hw) rfl rfl

theorem jstream_string_main (s s' : St) (h : jstream_string s = .ok s') :
    ∃ bs, s'.obj = s.obj ++ encB (.str bs) ∧ (∀ b ∈ bs, QIn s.input b) ∧
      Exi s s' := by
  obtain ⟨inp, cl, o⟩ := s
  obtain ⟨t, ht⟩ := List.takeWhile_prefix (l := inp) (p := sChr)
  have hdrop : inp.drop (inp.takeWhile sChr).length = t := by
    have h2 := congrArg (List.drop (inp.takeWhile sChr).length) ht
    rw [List.drop_left] at h2
    exact h2.symm
  rcases t with _ | ⟨c, r⟩
  · rw [jstream_string_eos inp cl o (Or.inl hdrop)] at h
    exact absurd h (by simp)
  · by_cases hc34 : c = 34
    · subst hc34
      have hinp : inp = inp.takeWhile sChr ++ 34 :: r := ht.symm
      have hall : ∀ x ∈ inp.takeWhile sChr, sChr x = true :=
        fun x hx => List.mem_takeWhile_imp hx
      rw [hinp, jstream_string_ok _ r cl o hall] at h
      have hs' : s' = jstream_next
          ⟨r, 34, (o ++ [W.n STRINGc]) ++
            pack4s (padTail (storedStr ((inp.takeWhile sChr).map byteOf)))⟩ := by
        injection h with h
        exact h.symm
      subst hs'
      refine ⟨storedStr ((inp.takeWhile sChr).map byteOf), ?_, ?_, ?_⟩
      · rw [next_obj, encB_str]
        simp only [List.append_assoc, List.singleton_append]
      · intro b hb
        have hb2 := storedStr_subset _ b hb
        obtain ⟨c', hc', hbc⟩ := List.mem_map.mp hb2
        have hsc := List.mem_takeWhile_imp hc'
        have h34 : c' ≠ 34 := by
          simpa [sChr] using (Bool.and_eq_true _ _ |>.mp hsc).1
        have hnn : (0 : Int) ≤ c' := by
          have := (Bool.and_eq_true _ _ |>.mp hsc).2
          simpa [sChr] using this
        refine ⟨c', ?_, hnn, h34, hbc.symm⟩
        rw [hinp]
        exact List.mem_append_left _ hc'
      · apply exi_next _ (inp.takeWhile sChr ++ [34]) [] r 34 _ ?_ ?_ (by simp)
        · show inp = (inp.takeWhile sChr ++ [34]) ++ [] ++ r
          conv_lhs => rw [hinp]
          simp
        · exact Or.inr ⟨34, List.getLast?_concat _, by decide⟩
    · have hneg : c < 0 := by
        have hsf : sChr c = false := by
          by_contra hcon
          have hsc : sChr c = true := by
            revert hcon
            cases sChr c <;> simp
          have h2 := congrArg (List.takeWhile sChr) ht
          rw [takeWhile_append_all (fun x hx2 => List.mem_takeWhile_imp hx2)] at h2
          have hlen := congrArg List.length h2
          simp only [List.length_append] at hlen
          have hz : (List.takeWhile (fun x => sChr x) (c :: r)).length = 0 := by
            omega
          simp [List.takeWhile_cons, hsc] at hz
        simp only [sChr, Bool.and_eq_false_iff, decide_eq_false_iff_not,
          not_not, not_le] at hsf
        rcases hsf with h34 | hlt
        · exact absurd h34 hc34
        · exact hlt
      rw [jstream_string_eos inp cl o
        (Or.inr ⟨c, r, hdrop, hneg⟩)] at h
      exact absurd h (by simp)

theorem jstream_number_main (s s' : St) (h : jstream_number s = .ok s') :
    ∃ q, s'.obj = s.obj ++ encB (.num q) ∧ Exi s s' := by
  obtain ⟨inp, cl, o⟩ := s
  by_cases hlong : 127 ≤ (inp.takeWhile numMem).length
  · rw [jstream_number_long ⟨inp, cl, o⟩ hlong] at h
    exact absurd h (by simp)
  · push_neg at hlong
    rw [jstream_number_spec inp cl o hlong] at h
    by_cases hchk : (strtodM (cstrOf (byteOf cl :: (inp.takeWhile numMem).map byteOf))).2 ≠
        (cstrOf (byteOf cl :: (inp.takeWhile numMem).map byteOf)).length
    · rw [if_pos hchk] at h
      exact absurd h (by simp)
    · rw [if_neg hchk] at h
      refine ⟨(strtodM (cstrOf
        (byteOf cl :: (inp.takeWhile numMem).map byteOf))).1, ?_⟩
      obtain ⟨t, ht⟩ := List.takeWhile_prefix (l := inp) (p := numMem)
      have hdrop : inp.drop (inp.takeWhile numMem).length = t := by
        have h2 := congrArg (List.drop (inp.takeWhile numMem).length) ht
        rw [List.drop_left] at h2
        exact h2.symm
      obtain ⟨core, wsr0, hsp0, hws0, hd0⟩ :=
        split_ws_tail (inp.takeWhile numMem)
      rcases t with _ | ⟨c, r⟩
      · have hterm : numTermC inp = -1 := by
          unfold numTermC
          rw [hdrop]
        have hinp : inp = inp.takeWhile numMem := by
          conv_lhs => rw [← ht]
          simp
        have hdrop1 : inp.drop ((inp.takeWhile numMem).length + 1) = [] := by
          have hle : (inp.takeWhile numMem).length ≤ inp.length :=
            (List.takeWhile_prefix numMem).length_le
          have hlen : inp.length = (inp.takeWhile numMem).length := by
            conv_lhs => rw [hinp]
          exact List.drop_eq_nil_of_le (by omega)
        rw [hterm] at h
        rw [if_neg (by rw [wsMem_neg_one]; simp)] at h
        have hs' : s' = ⟨inp.drop ((inp.takeWhile numMem).length + 1), -1,
            o ++ [W.n NUMBERc,
              W.d (strtodM (cstrOf
                (byteOf cl :: (inp.takeWhile numMem).map byteOf))).1,
              W.dp]⟩ := by
          injection h with h
          exact h.symm
        subst hs'
        refine ⟨by rw [encB_num], ?_⟩
        refine ⟨core, wsr0, hws0, hd0, Or.inr ⟨?_, hdrop1, rfl⟩⟩
        show inp = core ++ wsr0
        conv_lhs => rw [hinp]
        exact hsp0
      · have hterm : numTermC inp = charOf c := by
          unfold numTermC
          rw [hdrop]
        have hinp : inp = inp.takeWhile numMem ++ c :: r := ht.symm
        have hdrop1 : inp.drop ((inp.takeWhile numMem).length + 1) = r := by
          have h2 := congrArg (List.drop 1) hdrop
          rw [List.drop_drop] at h2
          simpa using h2
        rw [hterm] at h
        by_cases hw : wsMem c = true
        · rw [if_pos (by rw [wsMem_charOf]; exact hw)] at h
          have hs' : s' = jstream_next
              ⟨inp.drop ((inp.takeWhile numMem).length + 1), charOf c,
               o ++ [W.n NUMBERc,
                 W.d (strtodM (cstrOf
                   (byteOf cl :: (inp.takeWhile numMem).map byteOf))).1,
                 W.dp]⟩ := by
            injection h with h
            exact h.symm
          subst hs'
          refine ⟨by rw [next_obj, encB_num], ?_⟩
          rw [hdrop1]
          have hsplit : inp = core ++ (wsr0 ++ [c]) ++ r := by
            conv_lhs => rw [hinp, hsp0]
            simp
          refine exi_next _ core (wsr0 ++ [c]) r _ _ hsplit hd0 ?_
          intro x hx
          rcases List.mem_append.mp hx with hx | hx
          · exact hws0 x hx
          · simp at hx
            subst hx
            exact hw
        · rw [if_neg (by rw [wsMem_charOf]; simpa using hw)] at h
          have hs' : s' = ⟨inp.drop ((inp.takeWhile numMem).length + 1),
              charOf c,
              o ++ [W.n NUMBERc,
                W.d (strtodM (cstrOf
                  (byteOf cl :: (inp.takeWhile numMem).map byteOf))).1,
                W.dp]⟩ := by
            injection h with h
            exact h.symm
          subst hs'
          refine ⟨by rw [encB_num], ?_⟩
          have hsplit2 : inp = core ++ wsr0 ++ c :: r := by
            conv_lhs => rw [hinp, hsp0]
          exact exi_direct2 _ core wsr0 c r _ hsplit2 hd0 hws0
            (by simpa using hw) hdrop1 (byteOf_charOf c)

/-!
## The main parse theorem: a successful `jstream_value` appends the
encoding of exactly one value and obeys the exit contract
-/

theorem getLast?_append_some {l2 : List Int} (l1 : List Int) {d : Int}
    (h : l2.getLast? = some d) : (l1 ++ l2).getLast? = some d := by
  rw [List.getLast?_append_of_ne_nil l1 (by rintro rfl; simp at h)]
  exact h

theorem bumpAt_spec (pre suf : List W) (k : Nat) :
    bumpAt (pre ++ W.n k :: suf) pre.length = pre ++ W.n (k + 1) :: suf := by
  have hget : (pre ++ W.n k :: suf).get? pre.length = some (W.n k) := by
    induction pre with
    | nil => rfl
    | cons a t ih => simpa using ih
  have hset : (pre ++ W.n k :: suf).set pre.length (W.n (k + 1)) =
      pre ++ W.n (k + 1) :: suf := by
    induction pre with
    | nil => rfl
    | cons a t ih => simpa [List.set] using ih
  unfold bumpAt
  rw [hget]
  exact hset

theorem SGood_lit_null (Q : Nat → Prop) : SGood Q .jnull := by
  rw [SGood]; trivial

theorem SGood_lit_true (Q : Nat → Prop) : SGood Q .jtrue := by
  rw [SGood]; trivial

theorem SGood_lit_false (Q : Nat → Prop) : SGood Q .jfalse := by
  rw [SGood]; trivial

theorem SGood_num_triv (Q : Nat → Prop) (q : ℚ) : SGood Q (.num q) := by
  rw [SGood]; trivial

theorem SGood_str_intro (Q : Nat → Prop) (bs : List Nat)
    (h : ∀ b ∈ bs, Q b) : SGood Q (.str bs) := by
  rw [SGood]; exact h

theorem SGood_arr_intro (Q : Nat → Prop) (xs : JList) (h : SGoodL Q xs) :
    SGood Q (.arr xs) := by
  rw [SGood]; exact h

theorem SGood_obj_intro (Q : Nat → Prop) (ps : JPairs) (h : SGoodP Q ps) :
    SGood Q (.obj ps) := by
  rw [SGood]; exact h

theorem SGoodL_nil_intro (Q : Nat → Prop) : SGoodL Q .nil := by
  rw [SGoodL]; trivial

theorem SGoodL_cons_intro (Q : Nat → Prop) (v : JVal) (t : JList)
    (hv : SGood Q v) (ht : SGoodL Q t) : SGoodL Q (.cons v t) := by
  rw [SGoodL]; exact ⟨hv, ht⟩

theorem SGoodP_nil_intro (Q : Nat → Prop) : SGoodP Q .nil := by
  rw [SGoodP]; trivial

theorem SGoodP_cons_intro (Q : Nat → Prop) (k v : JVal) (t : JPairs)
    (hk : SGood Q k) (hv : SGood Q v) (ht : SGoodP Q t) :
    SGoodP Q (.cons k v t) := by
  rw [SGoodP]; exact ⟨hk, hv, ht⟩

theorem exi_next2 (s t : St) (pre mid : List Int)
    (h : s.input = pre ++ mid ++ t.input)
    (hd : pre = [] ∨ ∃ d, pre.getLast? = some d ∧ wsMem d = false)
    (hmid : ∀ x ∈ mid, wsMem x = true) : Exi s (jstream_next t) := by
  obtain ⟨it, ct, ot⟩ := t
  exact exi_next s pre mid it ct ot h hd hmid

/-- Statement of the main lemma for `jstream_value` at fuel `f`. -/
def ValueStmt (f : Nat) : Prop :=
  ∀ s s', jstream_value f s = .ok s' →
    ∃ v, s'.obj = s.obj ++ encB v ∧ SGood (QIn s.input) v ∧ Exi s s'

/-- Statement of the main lemma for `jstream_array` at fuel `f`. -/
def ArrStmt (f : Nat) : Prop :=
  ∀ s s', jstream_array f s = .ok s' →
    ∃ xs : JList, s'.obj = s.obj ++ encB (.arr xs) ∧
      SGoodL (QIn s.input) xs ∧ Exi s s'

/-- Statement of the main lemma for `jstream_object` at fuel `f`. -/
def ObjStmt (f : Nat) : Prop :=
  ∀ s s', jstream_object f s = .ok s' →
    ∃ ps : JPairs, s'.obj = s.obj ++ encB (.obj ps) ∧
      SGoodP (QIn s.input) ps ∧ Exi s s'

/-- Statement of the main lemma for the array element loop at fuel `f`. -/
def ALoopStmt (f : Nat) : Prop :=
  ∀ ilen s s', jstream_arrayLoop f ilen s = .ok s' →
    ∀ pre k suf, s.obj = pre ++ W.n k :: suf → ilen = pre.length →
      ∃ xs : JList, xs ≠ .nil ∧
        s'.obj = pre ++ W.n (k + xs.len) :: (suf ++ encL xs) ∧
        SGoodL (QIn s.input) xs ∧
        (∃ cs d, s.input = cs ++ s'.input ∧ cs.getLast? = some d ∧
          wsMem d = false) ∧
        s'.clast = 93

/-- Statement of the main lemma for the object member loop at fuel `f`. -/
def OLoopStmt (f : Nat) : Prop :=
  ∀ ilen s s', jstream_objectLoop f ilen s = .ok s' →
    ∀ pre k suf, s.obj = pre ++ W.n k :: suf → ilen = pre.length →
      ∃ ps : JPairs, ps ≠ .nil ∧
        s'.obj = pre ++ W.n (k + ps.len) :: (suf ++ encP ps) ∧
        SGoodP (QIn s.input) ps ∧
        (∃ cs d, s.input = cs ++ s'.input ∧ cs.getLast? = some d ∧
          wsMem d = false) ∧
        s'.clast = 125

theorem main_all (f : Nat) :
    ValueStmt f ∧ ArrStmt f ∧ ObjStmt f ∧ ALoopStmt f ∧ OLoopStmt f := by
  induction f using Nat.strong_induction_on with
  | _ f IH =>
    match f with
    | 0 =>
      refine ⟨?_, ?_, ?_, ?_, ?_⟩
      · intro s s' h
        simp [jstream_value] at h
      · intro s s' h
        simp [jstream_array] at h
      · intro s s' h
        simp [jstream_object] at h
      · intro ilen s s' h
        simp [jstream_arrayLoop] at h
      · intro ilen s s' h
        simp [jstream_objectLoop] at h
    | f + 1 =>
      have IHv : ValueStmt f := (IH f (by omega)).1
      have IHa : ArrStmt f := (IH f (by omega)).2.1
      have IHo : ObjStmt f := (IH f (by omega)).2.2.1
      have IHal : ALoopStmt f := (IH f (by omega)).2.2.2.1
      have IHol : OLoopStmt f := (IH f (by omega)).2.2.2.2
      refine ⟨?_, ?_, ?_, ?_, ?_⟩
      -- jstream_value
      · intro s s' h
        simp only [jstream_value] at h
        split_ifs at h with h91 h123 h34 hnum h102 h110 h116
        · obtain ⟨xs, ho, hg, he⟩ := IHa s s' h
          exact ⟨.arr xs, ho, SGood_arr_intro _ _ hg, he⟩
        · obtain ⟨ps, ho, hg, he⟩ := IHo s s' h
          exact ⟨.obj ps, ho, SGood_obj_intro _ _ hg, he⟩
        · obtain ⟨bs, ho, hg, he⟩ := jstream_string_main s s' h
          exact ⟨.str bs, ho, SGood_str_intro _ _ hg, he⟩
        · obtain ⟨q, ho, he⟩ := jstream_number_main s s' h
          exact ⟨.num q, ho, SGood_num_triv _ _, he⟩
        · obtain ⟨ho, he⟩ := jstream_false_main s s' h
          exact ⟨.jfalse, by rw [ho, encB_false], SGood_lit_false _, he⟩
        · obtain ⟨ho, he⟩ := jstream_null_main s s' h
          exact ⟨.jnull, by rw [ho, encB_null], SGood_lit_null _, he⟩
        · obtain ⟨ho, he⟩ := jstream_true_main s s' h
          exact ⟨.jtrue, by rw [ho, encB_true], SGood_lit_true _, he⟩
      -- jstream_array
      · intro s s' h
        simp only [jstream_array] at h
        by_cases h93 :
            (jstream_next ⟨s.input, s.clast, s.obj ++ [W.n ARRAYc, W.n 0]⟩).clast = 93
        · rw [if_pos h93] at h
          have hs' : s' = jstream_next
              (jstream_next ⟨s.input, s.clast, s.obj ++ [W.n ARRAYc, W.n 0]⟩) := by
            injection h with h
            exact h.symm
          subst hs'
          rcases next_spec s.input s.clast (s.obj ++ [W.n ARRAYc, W.n 0]) with
            ⟨wsr, c, r, hein, hws, hnc, hrun⟩ | ⟨hws, hrun⟩
          · have hc : c = 93 := by
              rw [hrun] at h93
              exact h93
            subst hc
            refine ⟨.nil, ?_, SGoodL_nil_intro _, ?_⟩
            · rw [next_obj, hrun]
              show s.obj ++ [W.n ARRAYc, W.n 0] = _
              rw [encB_arr, encL_nil]
              rfl
            · rw [hrun]
              apply exi_next2 _ _ (wsr ++ [93]) [] ?_
                (Or.inr ⟨93, List.getLast?_concat _, by decide⟩) (by simp)
              show s.input = (wsr ++ [93]) ++ [] ++ r
              rw [hein]
              simp
          · rw [hrun] at h93
            simp at h93
        · rw [if_neg h93] at h
          cases heq : jstream_arrayLoop f (s.obj.length + 1)
              (jstream_next ⟨s.input, s.clast, s.obj ++ [W.n ARRAYc, W.n 0]⟩) with
          | error e =>
            rw [heq] at h
            simp at h
          | ok s3 =>
            rw [heq] at h
            have hs' : s' = jstream_next s3 := by
              injection h with h
              exact h.symm
            subst hs'
            have hobj2 :
                (jstream_next ⟨s.input, s.clast, s.obj ++ [W.n ARRAYc, W.n 0]⟩).obj =
                  (s.obj ++ [W.n ARRAYc]) ++ W.n 0 :: [] := by
              rw [next_obj]
              simp
            obtain ⟨xs, hne, hobj3, hgood, ⟨cs, d, hsplit2, hlast, hdws⟩, hcl3⟩ :=
              IHal (s.obj.length + 1) _ s3 heq (s.obj ++ [W.n ARRAYc]) 0 []
                hobj2 (by simp)
            obtain ⟨cs0, hsplit0⟩ :=
              next_suffix ⟨s.input, s.clast, s.obj ++ [W.n ARRAYc, W.n 0]⟩
            refine ⟨xs, ?_, ?_, ?_⟩
            · rw [next_obj, hobj3, encB_arr]
              simp
            · exact SGoodL_mono (QIn_mono ⟨cs0, hsplit0⟩) xs hgood
            · apply exi_next2 _ _ (cs0 ++ cs) [] ?_
                (Or.inr ⟨d, getLast?_append_some cs0 hlast, hdws⟩) (by simp)
              rw [List.append_nil, List.append_assoc, ← hsplit2]
              exact hsplit0
      -- jstream_object
      · intro s s' h
        simp only [jstream_object] at h
        by_cases h125 :
            (jstream_next ⟨s.input, s.clast, s.obj ++ [W.n OBJECTc, W.n 0]⟩).clast = 125
        · rw [if_pos h125] at h
          have hs' : s' = jstream_next
              (jstream_next ⟨s.input, s.clast, s.obj ++ [W.n OBJECTc, W.n 0]⟩) := by
            injection h with h
            exact h.symm
          subst hs'
          rcases next_spec s.input s.clast (s.obj ++ [W.n OBJECTc, W.n 0]) with
            ⟨wsr, c, r, hein, hws, hnc, hrun⟩ | ⟨hws, hrun⟩
          · have hc : c = 125 := by
              rw [hrun] at h125
              exact h125
            subst hc
            refine ⟨.nil, ?_, SGoodP_nil_intro _, ?_⟩
            · rw [next_obj, hrun]
              show s.obj ++ [W.n OBJECTc, W.n 0] = _
              rw [encB_obj, encP_nil]
              rfl
            · rw [hrun]
              apply exi_next2 _ _ (wsr ++ [125]) [] ?_
                (Or.inr ⟨125, List.getLast?_concat _, by decide⟩) (by simp)
              show s.input = (wsr ++ [125]) ++ [] ++ r
              rw [hein]
              simp
          · rw [hrun] at h125
            simp at h125
        · rw [if_neg h125] at h
          cases heq : jstream_objectLoop f (s.obj.length + 1)
              (jstream_next ⟨s.input, s.clast, s.obj ++ [W.n OBJECTc, W.n 0]⟩) with
          | error e =>
            rw [heq] at h
            simp at h
          | ok s3 =>
            rw [heq] at h
            have hs' : s' = jstream_next s3 := by
              injection h with h
              exact h.symm
            subst hs'
            have hobj2 :
                (jstream_next ⟨s.input, s.clast, s.obj ++ [W.n OBJECTc, W.n 0]⟩).obj =
                  (s.obj ++ [W.n OBJECTc]) ++ W.n 0 :: [] := by
              rw [next_obj]
              simp
            obtain ⟨ps, hne, hobj3, hgood, ⟨cs, d, hsplit2, hlast, hdws⟩, hcl3⟩ :=
              IHol (s.obj.length + 1) _ s3 heq (s.obj ++ [W.n OBJECTc]) 0 []
                hobj2 (by simp)
            obtain ⟨cs0, hsplit0⟩ :=
              next_suffix ⟨s.input, s.clast, s.obj ++ [W.n OBJECTc, W.n 0]⟩
            refine ⟨ps, ?_, ?_, ?_⟩
            · rw [next_obj, hobj3, encB_obj]
              simp
            · exact SGoodP_mono (QIn_mono ⟨cs0, hsplit0⟩) ps hgood
            · apply exi_next2 _ _ (cs0 ++ cs) [] ?_
                (Or.inr ⟨d, getLast?_append_some cs0 hlast, hdws⟩) (by simp)
              rw [List.append_nil, List.append_assoc, ← hsplit2]
              exact hsplit0
      -- jstream_arrayLoop
      · intro ilen s s' h pre k suf hobj hilen
        simp only [jstream_arrayLoop] at h
        cases heq : jstream_value f ⟨s.input, s.clast, bumpAt s.obj ilen⟩ with
        | error e =>
          rw [heq] at h
          simp at h
        | ok s2 =>
          rw [heq] at h
          obtain ⟨v, hobj2, hgood, hexi⟩ := IHv _ _ heq
          have hbump : bumpAt s.obj ilen = pre ++ W.n (k + 1) :: suf := by
            rw [hobj, hilen]
            exact bumpAt_spec pre suf k
          have hobj2' : s2.obj = (pre ++ W.n (k + 1) :: suf) ++ encB v := by
            rw [← hbump]
            exact hobj2
          have hgood0 : SGood (QIn s.input) v := hgood
          replace h : (if s2.clast = 44 then
              jstream_arrayLoop f ilen (jstream_next s2)
            else if s2.clast = 93 then Except.ok s2
            else Except.error JErr.closedBracket) = Except.ok s' := h
          split_ifs at h with h44 h93
          · -- ',' : continue looping
            obtain ⟨xs', hne', hobj', hgood', ⟨cs', d, hsplit', hlast', hdws'⟩,
                hcl'⟩ :=
              IHal ilen (jstream_next s2) s' h pre (k + 1) (suf ++ encB v)
                (by rw [next_obj, hobj2']; simp) hilen
            rcases hexi with ⟨core, wsr, hwsr, hcore, hd⟩
            rcases hd with ⟨c, hsp, hncw, hbc⟩ | ⟨hsp, hnil2, hcl2⟩
            · obtain ⟨csn, hsplitn⟩ := next_suffix s2
              have hsp0 : s.input = core ++ wsr ++ c :: s2.input := hsp
              have htot : s.input =
                  (core ++ wsr ++ [c] ++ csn ++ cs') ++ s'.input := by
                rw [hsp0, hsplitn, hsplit']
                simp
              refine ⟨.cons v xs', by simp, ?_, ?_, ?_, hcl'⟩
              · rw [hobj']
                have harith : k + 1 + xs'.len = k + (JList.cons v xs').len := by
                  simp [JList.len]
                  omega
                rw [harith, encL_cons]
                simp
              · refine SGoodL_cons_intro _ _ _ hgood0 ?_
                exact SGoodL_mono (QIn_mono ⟨core ++ wsr ++ [c] ++ csn, by
                  rw [hsp0, hsplitn]; simp⟩) xs' hgood'
              · exact ⟨core ++ wsr ++ [c] ++ csn ++ cs', d, htot,
                  getLast?_append_some _ hlast', hdws'⟩
            · rw [hcl2] at h44
              simp at h44
          · -- ']' : stop
            have hs' : s' = s2 := by
              injection h with h
              exact h.symm
            subst hs'
            rcases hexi with ⟨core, wsr, hwsr, hcore, hd⟩
            rcases hd with ⟨c, hsp, hncw, hbc⟩ | ⟨hsp, hnil2, hcl2⟩
            · have hsp0 : s.input = core ++ wsr ++ c :: s'.input := hsp
              refine ⟨.cons v .nil, by simp, ?_, ?_, ?_, h93⟩
              · rw [hobj2']
                have harith : k + (JList.cons v JList.nil).len = k + 1 := by
                  simp [JList.len]
                rw [harith, encL_cons, encL_nil]
                simp
              · exact SGoodL_cons_intro _ _ _ hgood0 (SGoodL_nil_intro _)
              · refine ⟨core ++ wsr ++ [c], c, ?_, ?_, hncw⟩
                · rw [hsp0]
                  simp
                · exact List.getLast?_concat _
            · rw [hcl2] at h93
              simp at h93
      -- jstream_objectLoop
      · intro ilen s s' h pre k suf hobj hilen
        simp only [jstream_objectLoop] at h
        cases heq : jstream_value f ⟨s.input, s.clast, bumpAt s.obj ilen⟩ with
        | error e =>
          rw [heq] at h
          simp at h
        | ok s2 =>
          rw [heq] at h
          obtain ⟨vk, hobj2, hgoodk, hexik⟩ := IHv _ _ heq
          have hbump : bumpAt s.obj ilen = pre ++ W.n (k + 1) :: suf := by
            rw [hobj, hilen]
            exact bumpAt_spec pre suf k
          have hobj2' : s2.obj = (pre ++ W.n (k + 1) :: suf) ++ encB vk := by
            rw [← hbump]
            exact hobj2
          have hgoodk0 : SGood (QIn s.input) vk := hgoodk
          replace h : (if s2.clast ≠ 58 then Except.error JErr.colon
            else match jstream_value f (jstream_next s2) with
              | Except.error e => Except.error e
              | Except.ok s3 =>
                if s3.clast = 125 then Except.ok s3
                else if s3.clast ≠ 44 then Except.error JErr.comma
                else jstream_objectLoop f ilen (jstream_next s3)) =
              Except.ok s' := h
          by_cases h58 : s2.clast ≠ 58
          · rw [if_pos h58] at h
            simp at h
          · rw [if_neg h58] at h
            push_neg at h58
            cases heq2 : jstream_value f (jstream_next s2) with
            | error e =>
              rw [heq2] at h
              simp at h
            | ok s3 =>
              rw [heq2] at h
              replace h : (if s3.clast = 125 then Except.ok s3
                else if s3.clast ≠ 44 then Except.error JErr.comma
                else jstream_objectLoop f ilen (jstream_next s3)) =
                  Except.ok s' := h
              obtain ⟨vv, hobj3, hgoodv, hexiv⟩ := IHv _ _ heq2
              have hobj3' : s3.obj =
                  ((pre ++ W.n (k + 1) :: suf) ++ encB vk) ++ encB vv := by
                rw [hobj3, next_obj, hobj2']
              rcases hexik with ⟨corek, wsrk, hwsrk, hcorek, hdk⟩
              rcases hdk with ⟨ck, hspk, hncwk, hbck⟩ | ⟨hspk, hnilk, hclk⟩
              swap
              · rw [hclk] at h58
                simp at h58
              obtain ⟨csn, hsplitn⟩ := next_suffix s2
              have hspk0 : s.input = corek ++ wsrk ++ ck :: s2.input := hspk
              have hprefk : s.input =
                  (corek ++ wsrk ++ [ck] ++ csn) ++ (jstream_next s2).input := by
                rw [hspk0, hsplitn]
                simp
              have hgoodv0 : SGood (QIn s.input) vv :=
                SGood_mono (QIn_mono ⟨corek ++ wsrk ++ [ck] ++ csn, hprefk⟩)
                  vv hgoodv
              split_ifs at h with h125 h44n
              · -- stop with closing brace
                have hs' : s' = s3 := by
                  injection h with h
                  exact h.symm
                subst hs'
                rcases hexiv with ⟨corev, wsrv, hwsrv, hcorev, hdv⟩
                rcases hdv with ⟨cv, hspv, hncwv, hbcv⟩ | ⟨hspv, hnilv, hclv⟩
                swap
                · rw [hclv] at h125
                  simp at h125
                refine ⟨.cons vk vv .nil, by simp, ?_, ?_, ?_, h125⟩
                · rw [hobj3']
                  have harith : k + (JPairs.cons vk vv JPairs.nil).len = k + 1 := by
                    simp [JPairs.len]
                  rw [harith, encP_cons, encP_nil]
                  simp
                · exact SGoodP_cons_intro _ _ _ _ hgoodk0 hgoodv0
                    (SGoodP_nil_intro _)
                · refine ⟨(corek ++ wsrk ++ [ck] ++ csn) ++
                    (corev ++ wsrv ++ [cv]), cv, ?_, ?_, hncwv⟩
                  · rw [hprefk, hspv]
                    simp
                  · exact getLast?_append_some _ (List.getLast?_concat _)
              · -- comma: continue
                obtain ⟨ps', hne', hobj', hgood', ⟨cs', d, hsplit', hlast', hdws'⟩,
                    hcl'⟩ :=
                  IHol ilen (jstream_next s3) s' h pre (k + 1)
                    ((suf ++ encB vk) ++ encB vv)
                    (by rw [next_obj, hobj3']; simp) hilen
                rcases hexiv with ⟨corev, wsrv, hwsrv, hcorev, hdv⟩
                rcases hdv with ⟨cv, hspv, hncwv, hbcv⟩ | ⟨hspv, hnilv, hclv⟩
                swap
                · rw [hclv] at h44n
                  simp at h44n
                obtain ⟨csn3, hsplitn3⟩ := next_suffix s3
                have hprefv : s.input =
                    ((corek ++ wsrk ++ [ck] ++ csn) ++
                      (corev ++ wsrv ++ [cv] ++ csn3)) ++
                      (jstream_next s3).input := by
                  rw [hprefk, hspv, hsplitn3]
                  simp
                have htot : s.input =
                    (((corek ++ wsrk ++ [ck] ++ csn) ++
                      (corev ++ wsrv ++ [cv] ++ csn3)) ++ cs') ++ s'.input := by
                  rw [hprefv, hsplit']
                  simp
                refine ⟨.cons vk vv ps', by simp, ?_, ?_, ?_, hcl'⟩
                · rw [hobj']
                  have harith : k + 1 + ps'.len = k + (JPairs.cons vk vv ps').len := by
                    simp [JPairs.len]
                    omega
                  rw [harith, encP_cons]
                  simp
                · refine SGoodP_cons_intro _ _ _ _ hgoodk0 hgoodv0 ?_
                  refine SGoodP_mono (QIn_mono ?_) ps' hgood'
                  exact ⟨(corek ++ wsrk ++ [ck] ++ csn) ++
                    (corev ++ wsrv ++ [cv] ++ csn3), hprefv⟩
                · exact ⟨((corek ++ wsrk ++ [ck] ++ csn) ++
                    (corev ++ wsrv ++ [cv] ++ csn3)) ++ cs', d, htot,
                    getLast?_append_some _ hlast', hdws'⟩

/-!
## Skip over an encoded value
-/

mutual

/-- Fuel needed by `jstream_skipF` to skip one encoded value. -/
def vCount : JVal → Nat
  | .jnull => 1
  | .jtrue => 1
  | .jfalse => 1
  | .num _ => 1
  | .str _ => 1
  | .arr xs => 1 + lCount xs
  | .obj ps => 1 + pCount ps

def lCount : JList → Nat
  | .nil => 0
  | .cons v t => 1 + max (vCount v) (lCount t)

def pCount : JPairs → Nat
  | .nil => 0
  | .cons k v t => 1 + max (vCount k) (1 + max (vCount v) (pCount t))

end

mutual

theorem encB_ne_nil : ∀ v : JVal, 1 ≤ (encB v).length
  | .jnull => by rw [encB_null]; simp
  | .jtrue => by rw [encB_true]; simp
  | .jfalse => by rw [encB_false]; simp
  | .num q => by rw [encB_num]; simp
  | .str bs => by rw [encB_str]; simp
  | .arr xs => by rw [encB_arr]; simp
  | .obj ps => by rw [encB_obj]; simp

theorem vCount_le : ∀ v : JVal, vCount v ≤ (encB v).length
  | .jnull => by rw [vCount, encB_null]; simp
  | .jtrue => by rw [vCount, encB_true]; simp
  | .jfalse => by rw [vCount, encB_false]; simp
  | .num q => by rw [vCount, encB_num]; simp
  | .str bs => by rw [vCount, encB_str]; simp
  | .arr xs => by
    rw [vCount, encB_arr]
    have := lCount_le xs
    simp only [List.length_cons]
    omega
  | .obj ps => by
    rw [vCount, encB_obj]
    have := pCount_le ps
    simp only [List.length_cons]
    omega

theorem lCount_le : ∀ xs : JList, lCount xs ≤ (encL xs).length + 1
  | .nil => by rw [lCount]; simp
  | .cons v t => by
    rw [lCount, encL_cons]
    have h1 := vCount_le v
    have h2 := lCount_le t
    have h3 := encB_ne_nil v
    simp only [List.length_append]
    omega

theorem pCount_le : ∀ ps : JPairs, pCount ps ≤ (encP ps).length + 1
  | .nil => by rw [pCount]; simp
  | .cons k v t => by
    rw [pCount, encP_cons]
    have h1 := vCount_le k
    have h2 := vCount_le v
    have h3 := pCount_le t
    have h4 := encB_ne_nil k
    have h5 := encB_ne_nil v
    simp only [List.length_append]
    omega

end

mutual

/-- `jstream_skip` jumps over one NUL-free encoded value. -/
theorem skip_encB : ∀ (v : JVal), SGood (fun b => b ≠ 0) v →
    ∀ (f : Nat) (r : List W), vCount v ≤ f →
      jstream_skipF f (encB v ++ r) = some r
  | v, _, 0, r, hf => by
    exfalso
    have h1 : 1 ≤ vCount v := by
      cases v <;> rw [vCount] <;> omega
    omega
  | .jnull, _, f + 1, r, _ => by
    rw [encB_null]
    show jstream_skipF (f + 1) (W.n 0 :: r) = some r
    rw [jstream_skipF]
  | .jtrue, _, f + 1, r, _ => by
    rw [encB_true]
    show jstream_skipF (f + 1) (W.n 1 :: r) = some r
    rw [jstream_skipF]
  | .jfalse, _, f + 1, r, _ => by
    rw [encB_false]
    show jstream_skipF (f + 1) (W.n 2 :: r) = some r
    rw [jstream_skipF]
  | .num q, _, f + 1, r, _ => by
    rw [encB_num]
    show jstream_skipF (f + 1) (W.n 3 :: (W.d q :: W.dp :: r)) = some r
    rw [jstream_skipF]
    simp
  | .str bs, h, f + 1, r, _ => by
    rw [encB_str]
    show jstream_skipF (f + 1) (W.n 4 :: (pack4s (padTail bs) ++ r)) = some r
    rw [jstream_skipF]
    have hq : ∀ b ∈ bs, b ≠ 0 := by
      have h2 : SGood (fun b => b ≠ 0) (.str bs) = ∀ b ∈ bs, b ≠ 0 := by
        rw [SGood]
      exact h2 ▸ h
    rw [drop_string_payload bs r hq]
  | .arr xs, h, f + 1, r, hf => by
    rw [encB_arr]
    show jstream_skipF (f + 1) (W.n 5 :: W.n xs.len :: (encL xs ++ r)) = some r
    rw [jstream_skipF]
    have hgl : SGoodL (fun b => b ≠ 0) xs := by
      have h2 : SGood (fun b => b ≠ 0) (.arr xs) = SGoodL (fun b => b ≠ 0) xs := by
        rw [SGood]
      exact h2 ▸ h
    exact skip_encL xs hgl f r (by rw [vCount] at hf; omega)
  | .obj ps, h, f + 1, r, hf => by
    rw [encB_obj]
    show jstream_skipF (f + 1) (W.n 6 :: W.n ps.len :: (encP ps ++ r)) = some r
    rw [jstream_skipF]
    have hgp : SGoodP (fun b => b ≠ 0) ps := by
      have h2 : SGood (fun b => b ≠ 0) (.obj ps) = SGoodP (fun b => b ≠ 0) ps := by
        rw [SGood]
      exact h2 ▸ h
    exact skip_encP ps hgp f r (by rw [vCount] at hf; omega)

theorem skip_encL : ∀ (xs : JList), SGoodL (fun b => b ≠ 0) xs →
    ∀ (f : Nat) (r : List W), lCount xs ≤ f →
      jstream_skipN f xs.len (encL xs ++ r) = some r
  | .nil, _, f, r, _ => by
    rw [encL_nil, List.nil_append]
    show jstream_skipN f JList.nil.len r = some r
    rw [show JList.nil.len = 0 from rfl, jstream_skipN]
  | .cons v t, h, f, r, hf => by
    have hgb : SGood (fun b => b ≠ 0) v ∧ SGoodL (fun b => b ≠ 0) t := by
      have h2 : SGoodL (fun b => b ≠ 0) (.cons v t) =
          (SGood (fun b => b ≠ 0) v ∧ SGoodL (fun b => b ≠ 0) t) := by
        rw [SGoodL]
      exact h2 ▸ h
    rw [lCount] at hf
    match f, hf with
    | 0, hf => omega
    | f + 1, hf =>
      rw [encL_cons]
      show jstream_skipN (f + 1) ((JList.cons v t).len) ((encB v ++ encL t) ++ r) =
        some r
      rw [show (JList.cons v t).len = t.len + 1 from rfl, jstream_skipN]
      rw [List.append_assoc, skip_encB v hgb.1 f _ (by omega)]
      exact skip_encL t hgb.2 f r (by omega)

theorem skip_encP : ∀ (ps : JPairs), SGoodP (fun b => b ≠ 0) ps →
    ∀ (f : Nat) (r : List W), pCount ps ≤ f →
      jstream_skipN f (2 * ps.len) (encP ps ++ r) = some r
  | .nil, _, f, r, _ => by
    rw [encP_nil, List.nil_append]
    show jstream_skipN f (2 * JPairs.nil.len) r = some r
    rw [show 2 * JPairs.nil.len = 0 from rfl, jstream_skipN]
  | .cons k v t, h, f, r, hf => by
    have hgb : SGood (fun b => b ≠ 0) k ∧ SGood (fun b => b ≠ 0) v ∧
        SGoodP (fun b => b ≠ 0) t := by
      have h2 : SGoodP (fun b => b ≠ 0) (.cons k v t) =
          (SGood (fun b => b ≠ 0) k ∧ SGood (fun b => b ≠ 0) v ∧
            SGoodP (fun b => b ≠ 0) t) := by
        rw [SGoodP]
      exact h2 ▸ h
    rw [pCount] at hf
    match f, hf with
    | 0, hf => omega
    | f + 1, hf =>
      rw [encP_cons]
      have hlen : 2 * (JPairs.cons k v t).len = (2 * t.len + 1) + 1 := by
        rw [show (JPairs.cons k v t).len = t.len + 1 from rfl]
        omega
      rw [hlen, jstream_skipN]
      rw [List.append_assoc, List.append_assoc,
        skip_encB k hgb.1 f _ (by omega)]
      show jstream_skipN f (2 * t.len + 1) (encB v ++ (encP t ++ r)) = some r
      match f, hf with
      | 0, hf => omega
      | f + 1, hf =>
        rw [jstream_skipN, skip_encB v hgb.2.1 f _ (by omega)]
        show jstream_skipN f (2 * t.len) (encP t ++ r) = some r
        exact skip_encP t hgb.2.2 f r (by omega)

end

/-- A successful top-level parse produces exactly the encoding of one
    abstract value whose string bytes all come from consumed non-quote
    characters of the input. -/
theorem jstream_encode (inp : List Int) (B : List W)
    (h : jstream inp = .ok B) :
    ∃ v, B = encB v ∧ SGood (QIn inp) v := by
  unfold jstream at h
  cases heq : jstream_value (3 * inp.length + 4) (jstream_next ⟨inp, -1, []⟩) with
  | error e =>
    rw [heq] at h
    simp at h
  | ok s' =>
    rw [heq] at h
    injection h with h
    obtain ⟨v, hobj, hgood, _⟩ := (main_all _).1 _ _ heq
    refine ⟨v, ?_, ?_⟩
    · rw [← h, hobj, next_obj]
      rfl
    · have hsuf : ∃ cs, inp = cs ++ (jstream_next ⟨inp, -1, []⟩).input := by
        have := next_suffix ⟨inp, -1, []⟩
        exact this
      exact SGood_mono (QIn_mono hsuf) v hgood

/-- C1, amended: for every successful parse from a source that delivers no
    NUL characters (`c % 256 = 0`), `jstream_skip` at the buffer's start
    returns the position exactly `p->size` words past the start — in the
    list model, the empty suffix of the buffer. -/
theorem C1_skip_whole_buffer (inp : List Int) (B : List W)
    (hp : jstream inp = .ok B) (hnul : ∀ c ∈ inp, c % 256 ≠ 0) :
    jstream_skip B = some [] := by
  obtain ⟨v, hB, hgood⟩ := jstream_encode inp B hp
  have hgood0 : SGood (fun b => b ≠ 0) v := by
    apply SGood_mono _ v hgood
    rintro b ⟨c, hc, h0, h34, rfl⟩
    intro hb0
    apply hnul c hc
    have hnn : 0 ≤ c % 256 := Int.emod_nonneg c (by norm_num)
    simp only [byteOf] at hb0
    omega
  subst hB
  have hs := skip_encB v hgood0 ((encB v).length + 1) []
    (by have := vCount_le v; omega)
  rw [List.append_nil] at hs
  exact hs

/-- Witness for the amended C1 at the concrete source text `true `. -/
theorem C1_skip_whole_buffer_witness : jstream_skip [W.n TRUEc] = some [] :=
  C1_skip_whole_buffer [116, 114, 117, 101, 32] [W.n TRUEc] (by rfl)
    (by decide)

/-- C1, counterexample to the original claim: the source
    `"aaaaaaaaaa<NUL>bbb...b"` (a 64-byte string body with a NUL byte
    inside, so that the scratch buffer is flushed verbatim) parses
    successfully into an 18-word buffer, but `jstream_skip` relies on
    `strlen`, stops at the embedded NUL, and returns the position only 4
    words past the start — not `p->size` words. -/
theorem C1_counterexample :
    ∃ B rest, jstream ((34 : Int) :: (List.replicate 10 (97 : Int) ++ [0] ++
        List.replicate 53 (98 : Int) ++ [34])) = .ok B ∧
      B.length = 18 ∧ jstream_skip B = some rest ∧ rest.length = 14 :=
  ⟨_, _, rfl, rfl, rfl, rfl⟩

/-- C3, amended: every grammar handler that returns successfully has
    consumed exactly its matched text (ending in a non-whitespace
    character), a run of scanner whitespace, and at most one further
    character — the lookahead left in `p->clast` (as a `char`, so only its
    byte is preserved), or `-1` when the stream ran out during the
    whitespace skip.  `Exi` states exactly this exit contract. -/
theorem C3_handler_exit_contract (f : Nat) :
    (∀ s s', jstream_value f s = .ok s' → Exi s s') ∧
    (∀ s s', jstream_array f s = .ok s' → Exi s s') ∧
    (∀ s s', jstream_object f s = .ok s' → Exi s s') ∧
    (∀ s s', jstream_true s = .ok s' → Exi s s') ∧
    (∀ s s', jstream_false s = .ok s' → Exi s s') ∧
    (∀ s s', jstream_null s = .ok s' → Exi s s') ∧
    (∀ s s', jstream_string s = .ok s' → Exi s s') ∧
    (∀ s s', jstream_number s = .ok s' → Exi s s') := by
  obtain ⟨hv, ha, ho, -, -⟩ := main_all f
  refine ⟨fun s s' h => ?_, fun s s' h => ?_, fun s s' h => ?_,
    fun s s' h => (jstream_true_main s s' h).2,
    fun s s' h => (jstream_false_main s s' h).2,
    fun s s' h => (jstream_null_main s s' h).2,
    fun s s' h => ?_, fun s s' h => ?_⟩
  · obtain ⟨v, -, -, he⟩ := hv s s' h
    exact he
  · obtain ⟨xs, -, -, he⟩ := ha s s' h
    exact he
  · obtain ⟨ps, -, -, he⟩ := ho s s' h
    exact he
  · obtain ⟨bs, -, -, he⟩ := jstream_string_main s s' h
    exact he
  · obtain ⟨q, -, he⟩ := jstream_number_main s s' h
    exact he

section RatRed

attribute [local semireducible] Rat.mul Rat.add Rat.sub Rat.inv
  Rat.ofScientific

/-- C3, counterexample to the original claim: the number handler stores the
    terminating character of the numeral as a `char` (`p->clast = buf[i]`
    after `char buf[...]` truncation), so after parsing `1` followed by the
    byte 200 the handler leaves `-56` in `clast`, not the source character
    200 that follows the matched value. -/
theorem C3_counterexample :
    jstream_number ⟨[200], 49, []⟩ =
      .ok ⟨[], -56, [W.n NUMBERc, W.d 1, W.dp]⟩ ∧ (-56 : Int) ≠ 200 :=
  ⟨by rfl, by decide⟩

end RatRed

/-- C4: whenever the parse fails, with any error code, the caller-visible
    result is that error code together with a `NULL` buffer (`free(p->obj);
    p->obj = NULL` runs before the error return): no partially built buffer
    is visible. -/
theorem C4_error_no_buffer (inp : List Int) (e : JErr)
    (h : jstream inp = .error e) : jstream_param inp = (e, none) := by
  unfold jstream at h
  unfold jstream_param
  cases heq : jstream_value (3 * inp.length + 4) (jstream_next ⟨inp, -1, []⟩) with
  | ok s' =>
    rw [heq] at h
    simp at h
  | error e' =>
    rw [heq] at h
    injection h with h
    rw [h]

/-- Witness for C4: a lone `]` fails with the value error and the parameter
    block holds that code and no buffer. -/
theorem C4_error_no_buffer_witness : jstream_param [93] = (.value, none) :=
  C4_error_no_buffer [93] .value (by rfl)

section RatRed2

attribute [local semireducible] Rat.mul Rat.add Rat.sub Rat.inv
  Rat.ofScientific

/-- C5, amended: parsing `[1,2,]` fails with the generic value error
    `ERR_VALUE` (after the comma the element loop re-enters `jstream_value`,
    which rejects `]`), so no 2-element array is produced — but the code is
    not the array-closing-bracket code. -/
theorem C5_trailing_comma :
    jstream [91, 49, 44, 50, 44, 93] = .error .value := by rfl

/-- C5, counterexample to the original claim: the trailing-comma input does
    not fail with `ERR_CLOSED_BRACKET` (it fails with `ERR_VALUE`). -/
theorem C5_counterexample :
    jstream [91, 49, 44, 50, 44, 93] ≠ .error .closedBracket := by
  have h : jstream [91, 49, 44, 50, 44, 93] = .error .value := by rfl
  rw [h]
  simp

end RatRed2

/-- C6, amended: after its exact remaining characters, each literal handler
    succeeds if and only if the following character is in the `strchr` set
    `" \r\t\n]},:"` — which contains the set string's terminating NUL but
    not the end-of-input value `-1` (whose `char` value 255 matches
    nothing); end of input right after the literal is therefore an error,
    and each handler's only error code is its own. -/
theorem C6_literal_followers (c : Int) (rest : List Int) (cl : Int)
    (o : List W) :
    ((∃ s', jstream_true ⟨114 :: 117 :: 101 :: c :: rest, cl, o⟩ = .ok s') ↔
      followMem c = true) ∧
    ((∃ s', jstream_false ⟨97 :: 108 :: 115 :: 101 :: c :: rest, cl, o⟩ =
      .ok s') ↔ followMem c = true) ∧
    ((∃ s', jstream_null ⟨117 :: 108 :: 108 :: c :: rest, cl, o⟩ = .ok s') ↔
      followMem c = true) ∧
    jstream_true ⟨[114, 117, 101], cl, o⟩ = .error .true_ ∧
    jstream_false ⟨[97, 108, 115, 101], cl, o⟩ = .error .false_ ∧
    jstream_null ⟨[117, 108, 108], cl, o⟩ = .error .null_ ∧
    (∀ e s', jstream_true s' = .error e → e = .true_) ∧
    (∀ e s', jstream_false s' = .error e → e = .false_) ∧
    (∀ e s', jstream_null s' = .error e → e = .null_) ∧
    followMem 0 = true ∧ followMem (-1) = false := by
  have hf1 : followMem (-1) = false := by decide
  refine ⟨?_, ?_, ?_, ?_, ?_, ?_,
    fun e s' h => jstream_true_err s' e h,
    fun e s' h => jstream_false_err s' e h,
    fun e s' h => jstream_null_err s' e h, by decide, hf1⟩
  · constructor
    · rintro ⟨s', hs'⟩
      obtain ⟨c', rest', heq, hfol⟩ := (jstream_true_iff _).mp ⟨s', hs'⟩
      replace heq : 114 :: 117 :: 101 :: c :: rest =
        114 :: 117 :: 101 :: c' :: rest' := heq
      simp only [List.cons.injEq] at heq
      rw [heq.2.2.2.1]
      exact hfol
    · intro hc
      rw [jstream_true_ok c rest cl o hc]
      exact ⟨_, rfl⟩
  · constructor
    · rintro ⟨s', hs'⟩
      obtain ⟨c', rest', heq, hfol⟩ := (jstream_false_iff _).mp ⟨s', hs'⟩
      replace heq : 97 :: 108 :: 115 :: 101 :: c :: rest =
        97 :: 108 :: 115 :: 101 :: c' :: rest' := heq
      simp only [List.cons.injEq] at heq
      rw [heq.2.2.2.2.1]
      exact hfol
    · intro hc
      rw [jstream_false_ok c rest cl o hc]
      exact ⟨_, rfl⟩
  · constructor
    · rintro ⟨s', hs'⟩
      obtain ⟨c', rest', heq, hfol⟩ := (jstream_null_iff _).mp ⟨s', hs'⟩
      replace heq : 117 :: 108 :: 108 :: c :: rest =
        117 :: 108 :: 108 :: c' :: rest' := heq
      simp only [List.cons.injEq] at heq
      rw [heq.2.2.2.1]
      exact hfol
    · intro hc
      rw [jstream_null_ok c rest cl o hc]
      exact ⟨_, rfl⟩
  · simp [jstream_true, get, hf1]
  · simp [jstream_false, get, hf1]
  · simp [jstream_null, get, hf1]

/-- C6, counterexample to the original claim: end-of-input directly after
    `true` is rejected with the literal's error code (the claim admits
    end-of-input as a legal follower), while a NUL byte — which the claim's
    follower list does not contain — is accepted. -/
theorem C6_counterexample :
    jstream [116, 114, 117, 101] = .error .true_ ∧
    jstream [116, 114, 117, 101, 0] = .ok [W.n TRUEc] :=
  ⟨by rfl, by rfl⟩

/-- C7, amended: the string handler stops at the first `"` or end of input
    (a backslash does not escape anything), flushes full 64-byte chunks
    verbatim, and `strcpy`s the final partial chunk, so that chunk is
    truncated at its first NUL byte; end of input before the closing quote
    (and any negative character) is `ERR_EOS_INSIDE_STRING`. -/
theorem C7_string_scan :
    (∀ (a r : List Int) (cl : Int) (o : List W), (∀ c ∈ a, sChr c = true) →
      jstream_string ⟨a ++ 34 :: r, cl, o⟩ =
        .ok (jstream_next ⟨r, 34,
          (o ++ [W.n STRINGc]) ++ pack4s (padTail (storedStr (a.map byteOf)))⟩)) ∧
    (∀ (inp : List Int) (cl : Int) (o : List W),
      inp.drop (inp.takeWhile sChr).length = [] →
      jstream_string ⟨inp, cl, o⟩ = .error .eosInsideString) :=
  ⟨jstream_string_ok, fun inp cl o h => jstream_string_eos inp cl o (Or.inl h)⟩

/-- C7, counterexample to the original claim: the body `a<NUL>b` is not
    copied verbatim — the stored payload is truncated at the NUL (`b` is
    lost) — and a quote preceded by a backslash still terminates the
    string (the body `\` is stored, nothing is escaped). -/
theorem C7_counterexample :
    jstream [34, 97, 0, 98, 34] = .ok [W.n STRINGc, W.chs 97 0 0 0] ∧
    jstream [34, 92, 34, 32] = .ok [W.n STRINGc, W.chs 92 0 0 0] :=
  ⟨by rfl, by rfl⟩

/-- C8: a numeral whose text fills the 128-byte scratch buffer (the first
    character plus 127 further numeral characters, NUL bytes — which the
    `strchr` set matches — included) fails with `ERR_NUMBER_TOO_LONG`;
    below the bound the accumulated text is stored untruncated and read as
    a C string by `strtod`/`strlen`, and a partial conversion is the
    number error. -/
theorem C8_number_too_long :
    (∀ s : St, 127 ≤ (s.input.takeWhile numMem).length →
      jstream_number s = .error .numberTooLong) ∧
    (∀ (inp : List Int) (cl : Int) (o : List W),
      (inp.takeWhile numMem).length < 127 →
      jstream_number ⟨inp, cl, o⟩ =
        if (strtodM (cstrOf
              (byteOf cl :: (inp.takeWhile numMem).map byteOf))).2 ≠
            (cstrOf (byteOf cl :: (inp.takeWhile numMem).map
              byteOf)).length then
          .error .number
        else if wsMem (numTermC inp) then
          .ok (jstream_next ⟨inp.drop ((inp.takeWhile numMem).length + 1),
            numTermC inp,
            o ++ [W.n NUMBERc,
              W.d (strtodM (cstrOf
                (byteOf cl :: (inp.takeWhile numMem).map byteOf))).1,
              W.dp]⟩)
        else
          .ok (⟨inp.drop ((inp.takeWhile numMem).length + 1), numTermC inp,
            o ++ [W.n NUMBERc,
              W.d (strtodM (cstrOf
                (byteOf cl :: (inp.takeWhile numMem).map byteOf))).1,
              W.dp]⟩ : St)) :=
  ⟨jstream_number_long, jstream_number_spec⟩

/-- C10: a NUL character from the source is whitespace to the scanner
    (`strchr(" \r\t\n", c)` matches the terminating NUL), so `jstream_next`
    discards it, and each literal handler's follower test
    (`strchr(" \r\t\n]},:", c)`) accepts it after the literal. -/
theorem C10_nul_whitespace :
    wsMem 0 = true ∧ followMem 0 = true ∧
    (∀ (rest : List Int) (cl : Int) (o : List W),
      jstream_next ⟨0 :: rest, cl, o⟩ = jstream_next ⟨rest, cl, o⟩) ∧
    (∀ (rest : List Int) (cl : Int) (o : List W),
      jstream_true ⟨114 :: 117 :: 101 :: 0 :: rest, cl, o⟩ =
        .ok (jstream_next ⟨rest, 0, o ++ [W.n TRUEc]⟩)) ∧
    (∀ (rest : List Int) (cl : Int) (o : List W),
      jstream_false ⟨97 :: 108 :: 115 :: 101 :: 0 :: rest, cl, o⟩ =
        .ok (jstream_next ⟨rest, 0, o ++ [W.n FALSEc]⟩)) ∧
    (∀ (rest : List Int) (cl : Int) (o : List W),
      jstream_null ⟨117 :: 108 :: 108 :: 0 :: rest, cl, o⟩ =
        .ok (jstream_next ⟨rest, 0, o ++ [W.n NULLc]⟩)) := by
  have hw0 : wsMem 0 = true := by decide
  have hfl : followMem 0 = true := by decide
  refine ⟨hw0, hfl, ?_, ?_, ?_, ?_⟩
  · intro rest cl o
    simp [jstream_next, nextGo, hw0]
  · intro rest cl o
    rw [jstream_true_ok 0 rest cl o hfl]
    simp [hw0]
  · intro rest cl o
    rw [jstream_false_ok 0 rest cl o hfl]
    simp [hw0]
  · intro rest cl o
    rw [jstream_null_ok 0 rest cl o hfl]
    simp [hw0]

/-!
## The dump / re-parse round trip (C2)

`renderB v` is the exact byte text `jstream_dump` writes for the encoded
value `v`; `RTv` states the conditions under which that text re-parses to
the identical buffer: string payloads hold no NUL, no quote and only byte
values, and each stored number survives `%g` formatting followed by
`strtod` exactly (`gStable`).
-/

/-- The characters that follow a value inside dumped text: `,` `:` `]` `}`. -/
def sepC (c : Int) : Bool := c = 44 || c = 58 || c = 93 || c = 125

/-- Dumped text re-entering the parser as a character stream. -/
def intsOf (l : List Nat) : List Int := l.map Int.ofNat

mutual

/-- The text `jstream_dump` writes for one encoded value. -/
def renderB : JVal → List Nat
  | .jnull => [110, 117, 108, 108]
  | .jtrue => [116, 114, 117, 101]
  | .jfalse => [102, 97, 108, 115, 101]
  | .num q => gFormat q
  | .str bs => 34 :: (bs ++ [34])
  | .arr xs => 91 :: (renderL xs ++ [93])
  | .obj ps => 123 :: (renderP ps ++ [125])

/-- Array elements, `,`-separated as the dump loop writes them. -/
def renderL : JList → List Nat
  | .nil => []
  | .cons v t => renderB v ++ (if t.len = 0 then [] else [44]) ++ renderL t

/-- Object members, `key:value` and `,`-separated. -/
def renderP : JPairs → List Nat
  | .nil => []
  | .cons k v t =>
    renderB k ++ [58] ++ renderB v ++ (if t.len = 0 then [] else [44]) ++
      renderP t

end

theorem renderB_null : renderB .jnull = [110, 117, 108, 108] := by
  rw [renderB]

theorem renderB_true : renderB .jtrue = [116, 114, 117, 101] := by
  rw [renderB]

theorem renderB_false : renderB .jfalse = [102, 97, 108, 115, 101] := by
  rw [renderB]

theorem renderB_num (q : ℚ) : renderB (.num q) = gFormat q := by
  rw [renderB]

theorem renderB_str (bs : List Nat) :
    renderB (.str bs) = 34 :: (bs ++ [34]) := by
  rw [renderB]

theorem renderB_arr (xs : JList) :
    renderB (.arr xs) = 91 :: (renderL xs ++ [93]) := by
  rw [renderB]

theorem renderB_obj (ps : JPairs) :
    renderB (.obj ps) = 123 :: (renderP ps ++ [125]) := by
  rw [renderB]

theorem renderL_nil : renderL .nil = [] := by
  rw [renderL]

theorem renderL_cons (v : JVal) (t : JList) :
    renderL (.cons v t) =
      renderB v ++ (if t.len = 0 then [] else [44]) ++ renderL t := by
  rw [renderL]

theorem renderP_nil : renderP .nil = [] := by
  rw [renderP]

theorem renderP_cons (k v : JVal) (t : JPairs) :
    renderP (.cons k v t) =
      renderB k ++ [58] ++ renderB v ++ (if t.len = 0 then [] else [44]) ++
        renderP t := by
  rw [renderP]

/-- The stored rational `q` survives the dump / re-parse cycle: `%g`
    prints a numeral text that fits the scratch buffer, consists of
    numeral characters with a sign or digit first, and `strtod` converts
    all of it back to exactly `q`. -/
theorem cstrOf_all (l : List Nat) (h : ∀ b ∈ l, b ≠ 0) : cstrOf l = l := by
  unfold cstrOf
  exact List.takeWhile_eq_self_iff.mpr (by simpa using h)

theorem natDigs_no_nul (n : Nat) : ∀ b ∈ natDigs n, b ≠ 0 := by
  intro b hb
  simp only [natDigs, List.mem_map, List.mem_reverse] at hb
  obtain ⟨d, -, rfl⟩ := hb
  omega

theorem stripTrail_sub (l : List Nat) : ∀ b ∈ stripTrail l, b ∈ l := by
  intro b hb
  simp only [stripTrail, List.mem_reverse] at hb
  have h2 : b ∈ l.reverse := (List.dropWhile_sublist _).subset hb
  simpa using h2

theorem expField_no_nul (e : Int) : ∀ b ∈ expField e, b ≠ 0 := by
  intro b hb
  simp only [expField, List.mem_append] at hb
  rcases hb with hb | hb
  · split_ifs at hb <;> simp at hb <;> omega
  · split_ifs at hb
    · rcases List.mem_append.mp hb with hb | hb
      · simp at hb
        omega
      · exact natDigs_no_nul _ b hb
    · exact natDigs_no_nul _ b hb

theorem all_app {P : Nat → Prop} {a b : List Nat} (ha : ∀ x ∈ a, P x)
    (hb : ∀ x ∈ b, P x) : ∀ x ∈ a ++ b, P x := by
  intro x hx
  rcases List.mem_append.mp hx with h | h
  · exact ha x h
  · exact hb x h

theorem all_ite {P : Nat → Prop} {c : Prop} [Decidable c] {a b : List Nat}
    (ha : ∀ x ∈ a, P x) (hb : ∀ x ∈ b, P x) :
    ∀ x ∈ (if c then a else b), P x := by
  split_ifs
  · exact ha
  · exact hb

theorem all_cons {P : Nat → Prop} {a : Nat} {l : List Nat} (ha : P a)
    (hl : ∀ x ∈ l, P x) : ∀ x ∈ a :: l, P x := by
  intro x hx
  rcases List.mem_cons.mp hx with h | h
  · exact h ▸ ha
  · exact hl x h

/-- No NUL byte ever appears in `%g` output: every emitted byte is a
    digit, a sign, `.` or `e`. -/
theorem gFormatPos_no_nul (q : ℚ) : ∀ b ∈ gFormatPos q, b ≠ 0 := by
  have hds : ∀ n : Nat, ∀ x ∈ natDigs n, x ≠ 0 := natDigs_no_nul
  have hst : ∀ l : List Nat, (∀ x ∈ l, x ≠ 0) → ∀ x ∈ stripTrail l, x ≠ 0 :=
    fun l hl x hx => hl x (stripTrail_sub l x hx)
  have htk : ∀ (n : Nat) (l : List Nat), (∀ x ∈ l, x ≠ 0) →
      ∀ x ∈ l.take n, x ≠ 0 :=
    fun n l hl x hx => hl x ((List.take_sublist n l).subset hx)
  have hdp : ∀ (n : Nat) (l : List Nat), (∀ x ∈ l, x ≠ 0) →
      ∀ x ∈ l.drop n, x ≠ 0 :=
    fun n l hl x hx => hl x ((List.drop_sublist n l).subset hx)
  have htl : ∀ l : List Nat, (∀ x ∈ l, x ≠ 0) → ∀ x ∈ l.tail, x ≠ 0 :=
    fun l hl x hx => hl x ((List.tail_sublist l).subset hx)
  simp only [gFormatPos]
  refine all_ite (all_ite ?_ ?_) ?_
  · exact all_app (htk _ _ (hds _))
      (all_ite (by simp) (all_cons (by omega) (hst _ (hdp _ _ (hds _)))))
  · exact all_app (all_app (by decide)
      (fun x hx => by have := List.eq_of_mem_replicate hx; omega))
      (hst _ (hds _))
  · exact all_app (all_app (all_app (htk _ _ (hds _))
      (all_ite (by simp) (all_cons (by omega) (hst _ (htl _ (hds _))))))
      (by decide)) (expField_no_nul _)

theorem gFormat_no_nul (q : ℚ) : ∀ b ∈ gFormat q, b ≠ 0 := by
  intro b hb
  simp only [gFormat] at hb
  split_ifs at hb
  · simp at hb
    omega
  · rcases List.mem_cons.mp hb with hb | hb
    · omega
    · exact gFormatPos_no_nul _ b hb
  · exact gFormatPos_no_nul _ b hb

def gStable (q : ℚ) : Prop :=
  strtodM (gFormat q) = (q, (gFormat q).length) ∧
  (gFormat q).length < 128 ∧
  (∀ b ∈ gFormat q, b < 128 ∧ numMem (b : Int) = true) ∧
  ∃ hd tl, gFormat q = hd :: tl ∧ ((48 ≤ hd ∧ hd ≤ 57) ∨ hd = 45)

mutual

/-- Conditions for the dumped text of `v` to re-parse to the same
    buffer. -/
def RTv : JVal → Prop
  | .jnull => True
  | .jtrue => True
  | .jfalse => True
  | .num q => gStable q
  | .str bs => ∀ b ∈ bs, b ≠ 0 ∧ b ≠ 34 ∧ b < 256
  | .arr xs => RTl xs
  | .obj ps => RTp ps

def RTl : JList → Prop
  | .nil => True
  | .cons v t => RTv v ∧ RTl t

def RTp : JPairs → Prop
  | .nil => True
  | .cons k v t => RTv k ∧ RTv v ∧ RTp t

end

theorem RTv_num (q : ℚ) : RTv (.num q) = gStable q := by rw [RTv]

theorem RTv_str (bs : List Nat) :
    RTv (.str bs) = ∀ b ∈ bs, b ≠ 0 ∧ b ≠ 34 ∧ b < 256 := by rw [RTv]

theorem RTv_arr (xs : JList) : RTv (.arr xs) = RTl xs := by rw [RTv]

theorem RTv_obj (ps : JPairs) : RTv (.obj ps) = RTp ps := by rw [RTv]

theorem RTl_cons (v : JVal) (t : JList) :
    RTl (.cons v t) = (RTv v ∧ RTl t) := by rw [RTl]

theorem RTp_cons (k v : JVal) (t : JPairs) :
    RTp (.cons k v t) = (RTv k ∧ RTv v ∧ RTp t) := by rw [RTp]

mutual

theorem RTv_SGood : ∀ v : JVal, RTv v → SGood (fun b => b ≠ 0) v
  | .jnull, _ => SGood_lit_null _
  | .jtrue, _ => SGood_lit_true _
  | .jfalse, _ => SGood_lit_false _
  | .num q, _ => SGood_num_triv _ q
  | .str bs, h => by
    refine SGood_str_intro _ bs ?_
    replace h : ∀ b ∈ bs, b ≠ 0 ∧ b ≠ 34 ∧ b < 256 := (RTv_str bs) ▸ h
    exact fun b hb => (h b hb).1
  | .arr xs, h => SGood_arr_intro _ xs (RTl_SGoodL xs ((RTv_arr xs) ▸ h))
  | .obj ps, h => SGood_obj_intro _ ps (RTp_SGoodP ps ((RTv_obj ps) ▸ h))

theorem RTl_SGoodL : ∀ xs : JList, RTl xs → SGoodL (fun b => b ≠ 0) xs
  | .nil, _ => SGoodL_nil_intro _
  | .cons v t, h => by
    replace h : RTv v ∧ RTl t := (RTl_cons v t) ▸ h
    exact SGoodL_cons_intro _ v t (RTv_SGood v h.1) (RTl_SGoodL t h.2)

theorem RTp_SGoodP : ∀ ps : JPairs, RTp ps → SGoodP (fun b => b ≠ 0) ps
  | .nil, _ => SGoodP_nil_intro _
  | .cons k v t, h => by
    replace h : RTv k ∧ RTv v ∧ RTp t := (RTp_cons k v t) ▸ h
    exact SGoodP_cons_intro _ k v t (RTv_SGood k h.1) (RTv_SGood v h.2.1)
      (RTp_SGoodP t h.2.2)

end

mutual

/-- `jstream_dump` writes exactly `renderB v` for one NUL-free encoded
    value and leaves the following words. -/
theorem dump_encB : ∀ (v : JVal), SGood (fun b => b ≠ 0) v →
    ∀ (f : Nat) (r : List W), vCount v ≤ f →
      jstream_dumpF f (encB v ++ r) = some (renderB v, r)
  | v, _, 0, r, hf => by
    exfalso
    have h1 : 1 ≤ vCount v := by
      cases v <;> rw [vCount] <;> omega
    omega
  | .jnull, _, f + 1, r, _ => by
    rw [encB_null, renderB_null]
    show jstream_dumpF (f + 1) (W.n 0 :: r) = some ([110, 117, 108, 108], r)
    rw [jstream_dumpF]
  | .jtrue, _, f + 1, r, _ => by
    rw [encB_true, renderB_true]
    show jstream_dumpF (f + 1) (W.n 1 :: r) = some ([116, 114, 117, 101], r)
    rw [jstream_dumpF]
  | .jfalse, _, f + 1, r, _ => by
    rw [encB_false, renderB_false]
    show jstream_dumpF (f + 1) (W.n 2 :: r) =
      some ([102, 97, 108, 115, 101], r)
    rw [jstream_dumpF]
  | .num q, _, f + 1, r, _ => by
    rw [encB_num, renderB_num]
    show jstream_dumpF (f + 1) (W.n 3 :: (W.d q :: W.dp :: r)) =
      some (gFormat q, r)
    rw [jstream_dumpF]
  | .str bs, h, f + 1, r, _ => by
    rw [encB_str, renderB_str]
    show jstream_dumpF (f + 1) (W.n 4 :: (pack4s (padTail bs) ++ r)) =
      some (34 :: (bs ++ [34]), r)
    rw [jstream_dumpF]
    have hq : ∀ b ∈ bs, b ≠ 0 := by
      have h2 : SGood (fun b => b ≠ 0) (.str bs) = ∀ b ∈ bs, b ≠ 0 := by
        rw [SGood]
      exact h2 ▸ h
    rw [strBytes_encoded bs r hq, drop_string_payload bs r hq]
    simp
  | .arr xs, h, f + 1, r, hf => by
    rw [encB_arr, renderB_arr]
    show jstream_dumpF (f + 1) (W.n 5 :: W.n xs.len :: (encL xs ++ r)) =
      some (91 :: (renderL xs ++ [93]), r)
    rw [jstream_dumpF]
    have hgl : SGoodL (fun b => b ≠ 0) xs := by
      have h2 : SGood (fun b => b ≠ 0) (.arr xs) =
          SGoodL (fun b => b ≠ 0) xs := by
        rw [SGood]
      exact h2 ▸ h
    rw [dump_encL xs hgl f r (by rw [vCount] at hf; omega)]
    simp
  | .obj ps, h, f + 1, r, hf => by
    rw [encB_obj, renderB_obj]
    show jstream_dumpF (f + 1) (W.n 6 :: W.n ps.len :: (encP ps ++ r)) =
      some (123 :: (renderP ps ++ [125]), r)
    rw [jstream_dumpF]
    have hgp : SGoodP (fun b => b ≠ 0) ps := by
      have h2 : SGood (fun b => b ≠ 0) (.obj ps) =
          SGoodP (fun b => b ≠ 0) ps := by
        rw [SGood]
      exact h2 ▸ h
    rw [dump_encP ps hgp f r (by rw [vCount] at hf; omega)]
    simp

theorem dump_encL : ∀ (xs : JList), SGoodL (fun b => b ≠ 0) xs →
    ∀ (f : Nat) (r : List W), lCount xs ≤ f →
      jstream_dumpA f xs.len (encL xs ++ r) = some (renderL xs, r)
  | .nil, _, f, r, _ => by
    rw [encL_nil, renderL_nil, List.nil_append]
    show jstream_dumpA f JList.nil.len r = some ([], r)
    rw [show JList.nil.len = 0 from rfl, jstream_dumpA]
  | .cons v t, h, f, r, hf => by
    have hgb : SGood (fun b => b ≠ 0) v ∧ SGoodL (fun b => b ≠ 0) t := by
      have h2 : SGoodL (fun b => b ≠ 0) (.cons v t) =
          (SGood (fun b => b ≠ 0) v ∧ SGoodL (fun b => b ≠ 0) t) := by
        rw [SGoodL]
      exact h2 ▸ h
    rw [lCount] at hf
    match f, hf with
    | 0, hf => omega
    | f + 1, hf =>
      rw [encL_cons, renderL_cons]
      show jstream_dumpA (f + 1) ((JList.cons v t).len)
        ((encB v ++ encL t) ++ r) = some (renderB v ++
          (if t.len = 0 then [] else [44]) ++ renderL t, r)
      rw [show (JList.cons v t).len = t.len + 1 from rfl, jstream_dumpA,
        List.append_assoc]
      rw [dump_encB v hgb.1 f _ (by omega)]
      simp [dump_encL t hgb.2 f r (by omega)]

theorem dump_encP : ∀ (ps : JPairs), SGoodP (fun b => b ≠ 0) ps →
    ∀ (f : Nat) (r : List W), pCount ps ≤ f →
      jstream_dumpO f ps.len (encP ps ++ r) = some (renderP ps, r)
  | .nil, _, f, r, _ => by
    rw [encP_nil, renderP_nil, List.nil_append]
    show jstream_dumpO f JPairs.nil.len r = some ([], r)
    rw [show JPairs.nil.len = 0 from rfl, jstream_dumpO]
  | .cons k v t, h, f, r, hf => by
    have hgb : SGood (fun b => b ≠ 0) k ∧ SGood (fun b => b ≠ 0) v ∧
        SGoodP (fun b => b ≠ 0) t := by
      have h2 : SGoodP (fun b => b ≠ 0) (.cons k v t) =
          (SGood (fun b => b ≠ 0) k ∧ SGood (fun b => b ≠ 0) v ∧
            SGoodP (fun b => b ≠ 0) t) := by
        rw [SGoodP]
      exact h2 ▸ h
    rw [pCount] at hf
    match f, hf with
    | 0, hf => omega
    | f + 1, hf =>
      rw [encP_cons, renderP_cons]
      show jstream_dumpO (f + 1) ((JPairs.cons k v t).len)
        ((encB k ++ encB v ++ encP t) ++ r) = some (renderB k ++ [58] ++
          renderB v ++ (if t.len = 0 then [] else [44]) ++ renderP t, r)
      rw [show (JPairs.cons k v t).len = t.len + 1 from rfl, jstream_dumpO,
        List.append_assoc, List.append_assoc]
      rw [dump_encB k hgb.1 f _ (by omega)]
      simp [dump_encB v hgb.2.1 f _ (by omega),
        dump_encP t hgb.2.2 f r (by omega)]

end

theorem intsOf_append (a b : List Nat) :
    intsOf (a ++ b) = intsOf a ++ intsOf b := by
  unfold intsOf
  exact List.map_append _ a b

theorem intsOf_length (a : List Nat) : (intsOf a).length = a.length := by
  unfold intsOf
  exact List.length_map a _

theorem byteOf_natCast (b : Nat) (h : b < 256) : byteOf (b : Int) = b := by
  simp only [byteOf]
  omega

theorem intsOf_byteOf (l : List Nat) (h : ∀ b ∈ l, b < 256) :
    (intsOf l).map byteOf = l := by
  induction l with
  | nil => rfl
  | cons b t ih =>
    show byteOf (b : Int) :: (intsOf t).map byteOf = b :: t
    rw [byteOf_natCast b (h b (by simp)), ih fun x hx => h x (by simp [hx])]

/-- First characters a rendered value can have. -/
def headOK (b : Nat) : Bool :=
  b = 110 || b = 116 || b = 102 || b = 34 || b = 91 || b = 123 ||
    (48 ≤ b && b ≤ 57) || b = 45

theorem headOK_range (b : Nat) (h : headOK b = true) :
    b < 128 ∧ b ≠ 93 ∧ b ≠ 125 := by
  simp [headOK] at h
  rcases h with h|h|h|h|h|h|h|h <;> omega

theorem headOK_not_ws (b : Nat) (h : headOK b = true) :
    wsMem (b : Int) = false := by
  have hb := (headOK_range b h).1
  simp only [wsMem, byteOf_natCast b (by omega)]
  simp [headOK] at h
  rcases h with h|h|h|h|h|h|h|h <;> (subst_eqs <;> try rfl) <;>
    simp <;> omega

theorem sepC_facts (c : Int) (h : sepC c = true) :
    wsMem c = false ∧ numMem c = false ∧ followMem c = true ∧
      charOf c = c := by
  simp only [sepC, Bool.or_eq_true, decide_eq_true_eq] at h
  rcases h with ((h | h) | h) | h <;> subst h <;>
    exact ⟨by decide, by decide, by decide, by decide⟩

/-- A value form at the top of the text: a bare literal fails to re-parse
    at end of input, every other form succeeds. -/
def litForm : JVal → Prop
  | .jnull => True
  | .jtrue => True
  | .jfalse => True
  | _ => False

/-- The admissible text following a rendered value: a dump separator, or
    end of input for the non-literal forms. -/
def termOK (v : JVal) : List Int → Prop
  | [] => ¬ litForm v
  | c :: _ => sepC c = true

/-- The state a handler leaves, given what follows its text: the separator
    is the stored lookahead, end of input stores `-1`. -/
def exitSt : List Int → List W → St
  | [], o => ⟨[], -1, o⟩
  | c :: s, o => ⟨s, c, o⟩

mutual

/-- Fuel `jstream_value` needs to parse one rendered value. -/
def pfV : JVal → Nat
  | .jnull => 1
  | .jtrue => 1
  | .jfalse => 1
  | .num _ => 1
  | .str _ => 1
  | .arr xs => 2 + pfL xs
  | .obj ps => 2 + pfP ps

def pfL : JList → Nat
  | .nil => 0
  | .cons v t => 1 + max (pfV v) (pfL t)

def pfP : JPairs → Nat
  | .nil => 0
  | .cons k v t => 1 + max (pfV k) (max (pfV v) (pfP t))

end

theorem renderB_head : ∀ (v : JVal), RTv v →
    ∃ hd tl, renderB v = hd :: tl ∧ headOK hd = true
  | .jnull, _ => ⟨110, _, renderB_null, by decide⟩
  | .jtrue, _ => ⟨116, _, renderB_true, by decide⟩
  | .jfalse, _ => ⟨102, _, renderB_false, by decide⟩
  | .str bs, _ => ⟨34, _, renderB_str bs, by decide⟩
  | .arr xs, _ => ⟨91, _, renderB_arr xs, by decide⟩
  | .obj ps, _ => ⟨123, _, renderB_obj ps, by decide⟩
  | .num q, h => by
    replace h : gStable q := (RTv_num q) ▸ h
    obtain ⟨-, -, -, hd, tl, hg, hh⟩ := h
    refine ⟨hd, tl, by rw [renderB_num, hg], ?_⟩
    simp [headOK]
    omega

theorem value_as_array (f : Nat) (s : St) (h : s.clast = 91) :
    jstream_value (f + 1) s = jstream_array f s := by
  simp only [jstream_value]
  rw [if_pos h]

theorem value_as_object (f : Nat) (s : St) (h : s.clast = 123) :
    jstream_value (f + 1) s = jstream_object f s := by
  simp only [jstream_value]
  rw [if_neg (by omega), if_pos h]

theorem value_as_string (f : Nat) (s : St) (h : s.clast = 34) :
    jstream_value (f + 1) s = jstream_string s := by
  simp only [jstream_value]
  rw [if_neg (by omega), if_neg (by omega), if_pos h]

theorem value_as_number (f : Nat) (s : St)
    (h : (48 ≤ s.clast ∧ s.clast ≤ 57) ∨ s.clast = 45) :
    jstream_value (f + 1) s = jstream_number s := by
  simp only [jstream_value]
  rw [if_neg (by omega), if_neg (by omega), if_neg (by omega), if_pos h]

theorem value_as_false (f : Nat) (s : St) (h : s.clast = 102) :
    jstream_value (f + 1) s = jstream_false s := by
  simp only [jstream_value]
  rw [if_neg (by omega), if_neg (by omega), if_neg (by omega),
    if_neg (by omega), if_pos h]

theorem value_as_null (f : Nat) (s : St) (h : s.clast = 110) :
    jstream_value (f + 1) s = jstream_null s := by
  simp only [jstream_value]
  rw [if_neg (by omega), if_neg (by omega), if_neg (by omega),
    if_neg (by omega), if_neg (by omega), if_pos h]

theorem value_as_true (f : Nat) (s : St) (h : s.clast = 116) :
    jstream_value (f + 1) s = jstream_true s := by
  simp only [jstream_value]
  rw [if_neg (by omega), if_neg (by omega), if_neg (by omega),
    if_neg (by omega), if_neg (by omega), if_neg (by omega), if_pos h]

theorem termOK_not_ws (v : JVal) (T : List Int) (h : termOK v T) :
    ∀ c s, T = c :: s → wsMem c = false := by
  intro c s hcs
  subst hcs
  exact (sepC_facts c h).1

theorem next_term (T : List Int) (hT : ∀ c s, T = c :: s → wsMem c = false)
    (cl : Int) (o : List W) : jstream_next ⟨T, cl, o⟩ = exitSt T o := by
  match T with
  | [] => rfl
  | c :: s =>
    show nextGo (c :: s) o = exitSt (c :: s) o
    rw [nextGo, hT c s rfl]
    rfl

mutual

/-- Re-parsing the rendered text of a round-trip-stable value rebuilds
    exactly its encoding: the parser is entered with the text's first
    character in `clast`, consumes the text and the one admissible
    character after it, and appends `encB v` to the buffer. -/
theorem parse_render : ∀ (v : JVal), RTv v →
    ∀ (f : Nat), pfV v ≤ f →
    ∀ (hd : Nat) (tl : List Nat), renderB v = hd :: tl →
    ∀ (T : List Int), termOK v T →
    ∀ (o : List W),
      jstream_value f ⟨intsOf tl ++ T, (hd : Int), o⟩ =
        .ok (exitSt T (o ++ encB v))
  | v, _, 0, hf, _, _, _, _, _, _ => by
    exfalso
    have h1 : 1 ≤ pfV v := by
      cases v <;> rw [pfV] <;> omega
    omega
  | .jnull, _, f + 1, _, hd, tl, he, T, hT, o => by
    rw [renderB_null] at he
    injection he with h1 h2
    subst h1
    subst h2
    match T, hT with
    | [], hT => exact absurd trivial hT
    | c :: s, hT =>
      obtain ⟨hws, -, hfol, -⟩ := sepC_facts c hT
      rw [value_as_null f _ rfl]
      show jstream_null ⟨117 :: 108 :: 108 :: c :: s, (110 : Int), o⟩ = _
      rw [jstream_null_ok c s _ o hfol, if_neg (by simp [hws]), encB_null]
      rfl
  | .jtrue, _, f + 1, _, hd, tl, he, T, hT, o => by
    rw [renderB_true] at he
    injection he with h1 h2
    subst h1
    subst h2
    match T, hT with
    | [], hT => exact absurd trivial hT
    | c :: s, hT =>
      obtain ⟨hws, -, hfol, -⟩ := sepC_facts c hT
      rw [value_as_true f _ rfl]
      show jstream_true ⟨114 :: 117 :: 101 :: c :: s, (116 : Int), o⟩ = _
      rw [jstream_true_ok c s _ o hfol, if_neg (by simp [hws]), encB_true]
      rfl
  | .jfalse, _, f + 1, _, hd, tl, he, T, hT, o => by
    rw [renderB_false] at he
    injection he with h1 h2
    subst h1
    subst h2
    match T, hT with
    | [], hT => exact absurd trivial hT
    | c :: s, hT =>
      obtain ⟨hws, -, hfol, -⟩ := sepC_facts c hT
      rw [value_as_false f _ rfl]
      show jstream_false ⟨97 :: 108 :: 115 :: 101 :: c :: s, (102 : Int), o⟩ = _
      rw [jstream_false_ok c s _ o hfol, if_neg (by simp [hws]), encB_false]
      rfl
  | .num q, h, f + 1, _, hd, tl, he, T, hT, o => by
    replace h : gStable q := (RTv_num q) ▸ h
    obtain ⟨hconv, hlen, hall, hd0, tl0, hg, hhd⟩ := h
    rw [renderB_num, hg] at he
    injection he with h1 h2
    subst h1
    subst h2
    have hhd128 : hd0 < 128 := (hall hd0 (by rw [hg]; simp)).1
    have hallTl : ∀ x ∈ intsOf tl0, numMem x = true := by
      intro x hx
      obtain ⟨b, hb, rfl⟩ := List.mem_map.mp hx
      exact (hall b (by rw [hg]; simp [hb])).2
    have hlt : (intsOf tl0).length < 127 := by
      rw [intsOf_length]
      have h3 := congrArg List.length hg
      simp only [List.length_cons] at h3
      omega
    have hbuf : (byteOf ((hd0 : Nat) : Int) :: (intsOf tl0).map byteOf) =
        gFormat q := by
      rw [byteOf_natCast hd0 (by omega),
        intsOf_byteOf tl0 (fun b hb => by
          have := (hall b (by rw [hg]; simp [hb])).1
          omega), hg]
    have hc1 : (strtodM (gFormat q)).2 = (gFormat q).length := by
      rw [hconv]
    have hq1 : (strtodM (gFormat q)).1 = q := by
      rw [hconv]
    rw [value_as_number f _ (show (48 ≤ ((hd0 : Nat) : Int) ∧
      ((hd0 : Nat) : Int) ≤ 57) ∨ ((hd0 : Nat) : Int) = 45 from by omega)]
    match T, hT with
    | [], hT =>
      have htk : (intsOf tl0 ++ ([] : List Int)).takeWhile numMem =
          intsOf tl0 := by
        rw [List.append_nil]
        exact List.takeWhile_eq_self_iff.mpr hallTl
      rw [jstream_number_spec _ _ o (by rw [htk]; exact hlt)]
      rw [htk, hbuf, cstrOf_all (gFormat q) (gFormat_no_nul q)]
      rw [if_neg (by simp [hc1])]
      have hterm : numTermC (intsOf tl0 ++ ([] : List Int)) = -1 := by
        simp only [numTermC, htk]
        rw [List.append_nil, List.drop_length]
      rw [hterm, wsMem_neg_one, if_neg (by simp)]
      rw [hq1]
      have hdrop : (intsOf tl0 ++ ([] : List Int)).drop
          ((intsOf tl0).length + 1) = [] := by
        rw [List.append_nil]
        exact List.drop_eq_nil_of_le (by omega)
      rw [hdrop, encB_num]
      rfl
    | c :: s, hT =>
      obtain ⟨hws, hnum, -, hch⟩ := sepC_facts c hT
      have htk : (intsOf tl0 ++ c :: s).takeWhile numMem = intsOf tl0 := by
        rw [takeWhile_append_all hallTl, List.takeWhile_cons, hnum]
        simp
      rw [jstream_number_spec _ _ o (by rw [htk]; exact hlt)]
      rw [htk, hbuf, cstrOf_all (gFormat q) (gFormat_no_nul q)]
      rw [if_neg (by simp [hc1])]
      have hterm : numTermC (intsOf tl0 ++ c :: s) = c := by
        simp only [numTermC, htk, List.drop_left]
        exact hch
      rw [hterm, if_neg (by simp [hws])]
      rw [hq1]
      have hdrop : (intsOf tl0 ++ c :: s).drop ((intsOf tl0).length + 1) =
          s := by
        rw [show intsOf tl0 ++ c :: s = (intsOf tl0 ++ [c]) ++ s by simp,
          show (intsOf tl0).length + 1 = (intsOf tl0 ++ [c]).length by simp,
          List.drop_left]
      rw [hdrop, encB_num]
      rfl
  | .str bs, h, f + 1, _, hd, tl, he, T, hT, o => by
    replace h : ∀ b ∈ bs, b ≠ 0 ∧ b ≠ 34 ∧ b < 256 := (RTv_str bs) ▸ h
    rw [renderB_str] at he
    injection he with h1 h2
    subst h1
    subst h2
    rw [value_as_string f _ rfl]
    have hst : (⟨intsOf (bs ++ [34]) ++ T, ((34 : Nat) : Int), o⟩ : St) =
        ⟨intsOf bs ++ 34 :: T, (34 : Int), o⟩ := by
      rw [intsOf_append]
      show (⟨intsOf bs ++ [(34 : Int)] ++ T, (34 : Int), o⟩ : St) = _
      rw [List.append_assoc]
      rfl
    rw [hst]
    have hall : ∀ c ∈ intsOf bs, sChr c = true := by
      intro c hc
      obtain ⟨b, hb, rfl⟩ := List.mem_map.mp hc
      have hb2 := h b hb
      simp only [sChr, Bool.and_eq_true, decide_eq_true_eq,
        Int.ofNat_eq_coe]
      constructor
      · intro hx
        exact hb2.2.1 (by omega)
      · omega
    rw [jstream_string_ok (intsOf bs) T 34 o hall]
    rw [intsOf_byteOf bs (fun b hb => (h b hb).2.2),
      storedStr_of_nulFree bs (fun b hb => (h b hb).1)]
    rw [next_term T (termOK_not_ws _ T hT)]
    rw [encB_str]
    cases T <;> simp [exitSt]
  | .arr xs, h, f + 1, hf, hd, tl, he, T, hT, o => by
    replace h : RTl xs := (RTv_arr xs) ▸ h
    rw [renderB_arr] at he
    injection he with h1 h2
    subst h1
    subst h2
    rw [pfV] at hf
    rw [value_as_array f _ rfl]
    match f, hf with
    | 0, hf => omega
    | f + 1, hf =>
      simp only [jstream_array]
      simp only [Nat.cast_ofNat]
      cases xs with
      | nil =>
        have hin : intsOf (renderL .nil ++ [93]) ++ T = (93 : Int) :: T := by
          rw [renderL_nil]
          rfl
        rw [hin]
        have hnx : jstream_next ⟨(93 : Int) :: T, (91 : Int),
            o ++ [W.n ARRAYc, W.n 0]⟩ =
            ⟨T, 93, o ++ [W.n ARRAYc, W.n 0]⟩ := by
          show nextGo ((93 : Int) :: T) (o ++ [W.n ARRAYc, W.n 0]) = _
          rw [nextGo, show wsMem 93 = false from by decide]
          rfl
        rw [hnx]
        dsimp only
        rw [if_pos rfl]
        rw [next_term T (termOK_not_ws _ T hT)]
        rw [encB_arr, encL_nil]
        cases T <;> simp [exitSt, JList.len]
      | cons v t =>
        have hrt := (RTl_cons v t) ▸ h
        obtain ⟨hd1, tl1, hB, hOK⟩ := renderB_head v hrt.1
        have hdec : renderL (.cons v t) ++ [93] = hd1 ::
            (tl1 ++ ((if t.len = 0 then [] else [44]) ++
              (renderL t ++ [93]))) := by
          rw [renderL_cons, hB]
          simp
        have hin : intsOf (renderL (.cons v t) ++ [93]) ++ T =
            (hd1 : Int) :: (intsOf (tl1 ++ ((if t.len = 0 then [] else [44]) ++
              (renderL t ++ [93]))) ++ T) := by
          rw [hdec]
          rfl
        rw [hin]
        have hnx : jstream_next ⟨(hd1 : Int) :: (intsOf (tl1 ++
            ((if t.len = 0 then [] else [44]) ++ (renderL t ++ [93]))) ++ T),
            (91 : Int), o ++ [W.n ARRAYc, W.n 0]⟩ =
            ⟨intsOf (tl1 ++ ((if t.len = 0 then [] else [44]) ++
              (renderL t ++ [93]))) ++ T, (hd1 : Int),
              o ++ [W.n ARRAYc, W.n 0]⟩ := by
          show nextGo _ _ = _
          rw [nextGo, headOK_not_ws hd1 hOK]
          rfl
        rw [hnx]
        dsimp only
        rw [if_neg (show ¬((hd1 : Int) = 93) from by
          have := (headOK_range hd1 hOK).2.1
          omega)]
        have hloop := parse_renderL (.cons v t) (by simp) h f (by omega)
          hd1 (tl1 ++ ((if t.len = 0 then [] else [44]) ++ (renderL t ++ [93])))
          (by rw [hdec]) T (o ++ [W.n ARRAYc]) [] 0
        have hpre : (o ++ [W.n ARRAYc]).length = o.length + 1 := by simp
        rw [hpre] at hloop
        have hobj : o ++ [W.n ARRAYc, W.n 0] =
            (o ++ [W.n ARRAYc]) ++ W.n 0 :: [] := by simp
        rw [hobj, hloop]
        dsimp only
        rw [next_term T (termOK_not_ws _ T hT)]
        rw [encB_arr]
        cases T <;> simp [exitSt]
  | .obj ps, h, f + 1, hf, hd, tl, he, T, hT, o => by
    replace h : RTp ps := (RTv_obj ps) ▸ h
    rw [renderB_obj] at he
    injection he with h1 h2
    subst h1
    subst h2
    rw [pfV] at hf
    rw [value_as_object f _ rfl]
    match f, hf with
    | 0, hf => omega
    | f + 1, hf =>
      simp only [jstream_object]
      simp only [Nat.cast_ofNat]
      cases ps with
      | nil =>
        have hin : intsOf (renderP .nil ++ [125]) ++ T = (125 : Int) :: T := by
          rw [renderP_nil]
          rfl
        rw [hin]
        have hnx : jstream_next ⟨(125 : Int) :: T, (123 : Int),
            o ++ [W.n OBJECTc, W.n 0]⟩ =
            ⟨T, 125, o ++ [W.n OBJECTc, W.n 0]⟩ := by
          show nextGo ((125 : Int) :: T) (o ++ [W.n OBJECTc, W.n 0]) = _
          rw [nextGo, show wsMem 125 = false from by decide]
          rfl
        rw [hnx]
        dsimp only
        rw [if_pos rfl]
        rw [next_term T (termOK_not_ws _ T hT)]
        rw [encB_obj, encP_nil]
        cases T <;> simp [exitSt, JPairs.len]
      | cons kv v t =>
        have hrt := (RTp_cons kv v t) ▸ h
        obtain ⟨hd1, tl1, hB, hOK⟩ := renderB_head kv hrt.1
        have hdec : renderP (.cons kv v t) ++ [125] = hd1 ::
            (tl1 ++ ([58] ++ (renderB v ++ ((if t.len = 0 then [] else [44]) ++
              (renderP t ++ [125]))))) := by
          rw [renderP_cons, hB]
          simp
        have hin : intsOf (renderP (.cons kv v t) ++ [125]) ++ T =
            (hd1 : Int) :: (intsOf (tl1 ++ ([58] ++ (renderB v ++
              ((if t.len = 0 then [] else [44]) ++ (renderP t ++ [125]))))) ++
                T) := by
          rw [hdec]
          rfl
        rw [hin]
        have hnx : jstream_next ⟨(hd1 : Int) :: (intsOf (tl1 ++ ([58] ++
            (renderB v ++ ((if t.len = 0 then [] else [44]) ++
              (renderP t ++ [125]))))) ++ T), (123 : Int),
            o ++ [W.n OBJECTc, W.n 0]⟩ =
            ⟨intsOf (tl1 ++ ([58] ++ (renderB v ++
              ((if t.len = 0 then [] else [44]) ++ (renderP t ++ [125]))))) ++
                T, (hd1 : Int), o ++ [W.n OBJECTc, W.n 0]⟩ := by
          show nextGo _ _ = _
          rw [nextGo, headOK_not_ws hd1 hOK]
          rfl
        rw [hnx]
        dsimp only
        rw [if_neg (show ¬((hd1 : Int) = 125) from by
          have := (headOK_range hd1 hOK).2.2
          omega)]
        have hloop := parse_renderP (.cons kv v t) (by simp) h f (by omega)
          hd1 (tl1 ++ ([58] ++ (renderB v ++ ((if t.len = 0 then [] else [44])
            ++ (renderP t ++ [125])))))
          (by rw [hdec]) T (o ++ [W.n OBJECTc]) [] 0
        have hpre : (o ++ [W.n OBJECTc]).length = o.length + 1 := by simp
        rw [hpre] at hloop
        have hobj : o ++ [W.n OBJECTc, W.n 0] =
            (o ++ [W.n OBJECTc]) ++ W.n 0 :: [] := by simp
        rw [hobj, hloop]
        dsimp only
        rw [next_term T (termOK_not_ws _ T hT)]
        rw [encB_obj]
        cases T <;> simp [exitSt]

theorem parse_renderL : ∀ (xs : JList), xs ≠ .nil → RTl xs →
    ∀ (f : Nat), pfL xs ≤ f →
    ∀ (hd : Nat) (tl : List Nat), renderL xs ++ [93] = hd :: tl →
    ∀ (T : List Int) (pre suf : List W) (k : Nat),
      jstream_arrayLoop f pre.length
        ⟨intsOf tl ++ T, (hd : Int), pre ++ W.n k :: suf⟩ =
        .ok ⟨T, 93, pre ++ W.n (k + xs.len) :: (suf ++ encL xs)⟩
  | .nil, hne, _, _, _, _, _, _, _, _, _, _ => absurd rfl hne
  | .cons v t, _, h, f, hf, hd, tl, he, T, pre, suf, k => by
    replace h := (RTl_cons v t) ▸ h
    rw [pfL] at hf
    match f, hf with
    | 0, hf => omega
    | f + 1, hf =>
      obtain ⟨hd1, tl1, hB, hOK⟩ := renderB_head v h.1
      simp only [jstream_arrayLoop]
      rw [bumpAt_spec]
      cases t with
      | nil =>
        have he2 : hd1 :: (tl1 ++ [93]) = hd :: tl := by
          rw [← he, renderL_cons, hB]
          simp [JList.len, renderL_nil]
        injection he2 with h1 h2
        subst h1
        subst h2
        have hin : intsOf (tl1 ++ [93]) ++ T = intsOf tl1 ++ 93 :: T := by
          rw [intsOf_append]
          simp [intsOf]
        rw [hin]
        have hval := parse_render v h.1 f (by omega) hd1 tl1 hB (93 :: T)
          (by rw [termOK]; decide) (pre ++ W.n (k + 1) :: suf)
        rw [hval]
        dsimp only [exitSt]
        rw [if_neg (by decide), if_pos rfl]
        rw [encL_cons, encL_nil]
        rw [show (JList.cons v .nil).len = 1 from rfl]
        simp
      | cons w t2 =>
        have hlen0 : (JList.cons w t2).len ≠ 0 := by
          rw [show (JList.cons w t2).len = t2.len + 1 from rfl]
          omega
        have he2 : hd1 :: (tl1 ++ ([44] ++ (renderL (.cons w t2) ++ [93]))) =
            hd :: tl := by
          conv_rhs => rw [← he, renderL_cons, hB, if_neg hlen0]
          simp
        injection he2 with h1 h2
        subst h1
        subst h2
        have hin : intsOf (tl1 ++ ([44] ++ (renderL (.cons w t2) ++ [93]))) ++
            T = intsOf tl1 ++ 44 ::
              (intsOf (renderL (.cons w t2) ++ [93]) ++ T) := by
          rw [intsOf_append, intsOf_append]
          simp [intsOf]
        rw [hin]
        have hval := parse_render v h.1 f (by omega) hd1 tl1 hB
          (44 :: (intsOf (renderL (.cons w t2) ++ [93]) ++ T))
          (by rw [termOK]; decide) (pre ++ W.n (k + 1) :: suf)
        rw [hval]
        dsimp only [exitSt]
        rw [if_pos rfl]
        obtain ⟨hd2, tl2, hB2, hOK2⟩ :=
          renderB_head w ((RTl_cons w t2) ▸ h.2).1
        have hdec2 : renderL (.cons w t2) ++ [93] = hd2 ::
            (tl2 ++ ((if t2.len = 0 then [] else [44]) ++
              (renderL t2 ++ [93]))) := by
          rw [renderL_cons, hB2]
          simp
        have hin2 : intsOf (renderL (.cons w t2) ++ [93]) ++ T =
            (hd2 : Int) :: (intsOf (tl2 ++ ((if t2.len = 0 then [] else [44])
              ++ (renderL t2 ++ [93]))) ++ T) := by
          rw [hdec2]
          rfl
        rw [hin2]
        have hnx : jstream_next ⟨(hd2 : Int) :: (intsOf (tl2 ++
            ((if t2.len = 0 then [] else [44]) ++ (renderL t2 ++ [93]))) ++ T),
            (44 : Int), (pre ++ W.n (k + 1) :: suf) ++ encB v⟩ =
            ⟨intsOf (tl2 ++ ((if t2.len = 0 then [] else [44]) ++
              (renderL t2 ++ [93]))) ++ T, (hd2 : Int),
              (pre ++ W.n (k + 1) :: suf) ++ encB v⟩ := by
          show nextGo _ _ = _
          rw [nextGo, headOK_not_ws hd2 hOK2]
          rfl
        rw [hnx]
        have hobj2 : (pre ++ W.n (k + 1) :: suf) ++ encB v =
            pre ++ W.n (k + 1) :: (suf ++ encB v) := by simp
        rw [hobj2]
        have hloop := parse_renderL (.cons w t2) (by simp) h.2 f (by omega)
          hd2 (tl2 ++ ((if t2.len = 0 then [] else [44]) ++
            (renderL t2 ++ [93])))
          (by rw [hdec2]) T pre (suf ++ encB v) (k + 1)
        rw [hloop]
        rw [encL_cons]
        have harith : k + 1 + (JList.cons w t2).len =
            k + (JList.cons v (.cons w t2)).len := by
          rw [show (JList.cons w t2).len = t2.len + 1 from rfl,
            show (JList.cons v (.cons w t2)).len =
              (JList.cons w t2).len + 1 from rfl,
            show (JList.cons w t2).len = t2.len + 1 from rfl]
          omega
        rw [harith]
        simp [encL_cons]

theorem parse_renderP : ∀ (ps : JPairs), ps ≠ .nil → RTp ps →
    ∀ (f : Nat), pfP ps ≤ f →
    ∀ (hd : Nat) (tl : List Nat), renderP ps ++ [125] = hd :: tl →
    ∀ (T : List Int) (pre suf : List W) (k : Nat),
      jstream_objectLoop f pre.length
        ⟨intsOf tl ++ T, (hd : Int), pre ++ W.n k :: suf⟩ =
        .ok ⟨T, 125, pre ++ W.n (k + ps.len) :: (suf ++ encP ps)⟩
  | .nil, hne, _, _, _, _, _, _, _, _, _, _ => absurd rfl hne
  | .cons kv v t, _, h, f, hf, hd, tl, he, T, pre, suf, k => by
    replace h := (RTp_cons kv v t) ▸ h
    rw [pfP] at hf
    match f, hf with
    | 0, hf => omega
    | f + 1, hf =>
      obtain ⟨hd1, tl1, hB, hOK⟩ := renderB_head kv h.1
      obtain ⟨hd2, tl2, hB2, hOK2⟩ := renderB_head v h.2.1
      simp only [jstream_objectLoop]
      rw [bumpAt_spec]
      have he2 : hd1 :: (tl1 ++ ([58] ++ (renderB v ++
          ((if t.len = 0 then [] else [44]) ++ (renderP t ++ [125]))))) =
          hd :: tl := by
        rw [← he, renderP_cons, hB]
        simp
      injection he2 with h1 h2
      subst h1
      subst h2
      have hin : intsOf (tl1 ++ ([58] ++ (renderB v ++
          ((if t.len = 0 then [] else [44]) ++ (renderP t ++ [125]))))) ++ T =
          intsOf tl1 ++ 58 :: (intsOf (renderB v ++
            ((if t.len = 0 then [] else [44]) ++ (renderP t ++ [125]))) ++
              T) := by
        rw [intsOf_append, intsOf_append]
        simp [intsOf]
      rw [hin]
      have hval := parse_render kv h.1 f (by omega) hd1 tl1 hB
        (58 :: (intsOf (renderB v ++ ((if t.len = 0 then [] else [44]) ++
          (renderP t ++ [125]))) ++ T))
        (by rw [termOK]; decide) (pre ++ W.n (k + 1) :: suf)
      rw [hval]
      dsimp only [exitSt]
      rw [if_neg (by simp)]
      have hin2 : intsOf (renderB v ++ ((if t.len = 0 then [] else [44]) ++
          (renderP t ++ [125]))) ++ T = (hd2 : Int) :: (intsOf (tl2 ++
            ((if t.len = 0 then [] else [44]) ++ (renderP t ++ [125]))) ++
              T) := by
        rw [hB2]
        rfl
      rw [hin2]
      have hnx : jstream_next ⟨(hd2 : Int) :: (intsOf (tl2 ++
          ((if t.len = 0 then [] else [44]) ++ (renderP t ++ [125]))) ++ T),
          (58 : Int), (pre ++ W.n (k + 1) :: suf) ++ encB kv⟩ =
          ⟨intsOf (tl2 ++ ((if t.len = 0 then [] else [44]) ++
            (renderP t ++ [125]))) ++ T, (hd2 : Int),
            (pre ++ W.n (k + 1) :: suf) ++ encB kv⟩ := by
        show nextGo _ _ = _
        rw [nextGo, headOK_not_ws hd2 hOK2]
        rfl
      rw [hnx]
      cases t with
      | nil =>
        have hin3 : intsOf (tl2 ++ ((if (JPairs.nil).len = 0 then [] else [44])
            ++ (renderP .nil ++ [125]))) ++ T = intsOf tl2 ++ 125 :: T := by
          rw [show (JPairs.nil).len = 0 from rfl, renderP_nil]
          rw [intsOf_append]
          simp [intsOf]
        rw [hin3]
        have hval2 := parse_render v h.2.1 f (by omega) hd2 tl2 hB2 (125 :: T)
          (by rw [termOK]; decide)
          ((pre ++ W.n (k + 1) :: suf) ++ encB kv)
        rw [hval2]
        dsimp only [exitSt]
        rw [if_pos rfl]
        rw [encP_cons, encP_nil]
        rw [show (JPairs.cons kv v .nil).len = 1 from rfl]
        simp
      | cons k2 v2 t2 =>
        have hlen0 : (JPairs.cons k2 v2 t2).len ≠ 0 := by
          rw [show (JPairs.cons k2 v2 t2).len = t2.len + 1 from rfl]
          omega
        have hin3 : intsOf (tl2 ++
            ((if (JPairs.cons k2 v2 t2).len = 0 then [] else [44]) ++
              (renderP (.cons k2 v2 t2) ++ [125]))) ++ T =
            intsOf tl2 ++ 44 ::
              (intsOf (renderP (.cons k2 v2 t2) ++ [125]) ++ T) := by
          rw [if_neg hlen0, intsOf_append, intsOf_append]
          simp [intsOf]
        rw [hin3]
        have hval2 := parse_render v h.2.1 f (by omega) hd2 tl2 hB2
          (44 :: (intsOf (renderP (.cons k2 v2 t2) ++ [125]) ++ T))
          (by rw [termOK]; decide)
          ((pre ++ W.n (k + 1) :: suf) ++ encB kv)
        rw [hval2]
        dsimp only [exitSt]
        rw [if_neg (by decide), if_neg (by simp)]
        obtain ⟨hd3, tl3, hB3, hOK3⟩ :=
          renderB_head k2 ((RTp_cons k2 v2 t2) ▸ h.2.2).1
        have hdec3 : renderP (.cons k2 v2 t2) ++ [125] = hd3 ::
            (tl3 ++ ([58] ++ (renderB v2 ++
              ((if t2.len = 0 then [] else [44]) ++
                (renderP t2 ++ [125]))))) := by
          rw [renderP_cons, hB3]
          simp
        have hin4 : intsOf (renderP (.cons k2 v2 t2) ++ [125]) ++ T =
            (hd3 : Int) :: (intsOf (tl3 ++ ([58] ++ (renderB v2 ++
              ((if t2.len = 0 then [] else [44]) ++
                (renderP t2 ++ [125]))))) ++ T) := by
          rw [hdec3]
          rfl
        rw [hin4]
        have hnx2 : jstream_next ⟨(hd3 : Int) :: (intsOf (tl3 ++ ([58] ++
            (renderB v2 ++ ((if t2.len = 0 then [] else [44]) ++
              (renderP t2 ++ [125]))))) ++ T), (44 : Int),
            ((pre ++ W.n (k + 1) :: suf) ++ encB kv) ++ encB v⟩ =
            ⟨intsOf (tl3 ++ ([58] ++ (renderB v2 ++
              ((if t2.len = 0 then [] else [44]) ++
                (renderP t2 ++ [125]))))) ++ T, (hd3 : Int),
              ((pre ++ W.n (k + 1) :: suf) ++ encB kv) ++ encB v⟩ := by
          show nextGo _ _ = _
          rw [nextGo, headOK_not_ws hd3 hOK3]
          rfl
        rw [hnx2]
        have hobj2 : ((pre ++ W.n (k + 1) :: suf) ++ encB kv) ++ encB v =
            pre ++ W.n (k + 1) :: (suf ++ encB kv ++ encB v) := by simp
        rw [hobj2]
        have hloop := parse_renderP (.cons k2 v2 t2) (by simp) h.2.2 f
          (by omega) hd3 (tl3 ++ ([58] ++ (renderB v2 ++
            ((if t2.len = 0 then [] else [44]) ++ (renderP t2 ++ [125])))))
          (by rw [hdec3]) T pre (suf ++ encB kv ++ encB v) (k + 1)
        rw [hloop]
        rw [encP_cons]
        have harith : k + 1 + (JPairs.cons k2 v2 t2).len =
            k + (JPairs.cons kv v (.cons k2 v2 t2)).len := by
          rw [show (JPairs.cons k2 v2 t2).len = t2.len + 1 from rfl,
            show (JPairs.cons kv v (.cons k2 v2 t2)).len =
              (JPairs.cons k2 v2 t2).len + 1 from rfl,
            show (JPairs.cons k2 v2 t2).len = t2.len + 1 from rfl]
          omega
        rw [harith]
        simp [encP_cons]

end

mutual

theorem pfV_le : ∀ v : JVal, RTv v → pfV v ≤ 2 * (renderB v).length
  | .jnull, _ => by
    rw [pfV, renderB_null]
    simp
  | .jtrue, _ => by
    rw [pfV, renderB_true]
    simp
  | .jfalse, _ => by
    rw [pfV, renderB_false]
    simp
  | .num q, h => by
    obtain ⟨hd, tl, hB, -⟩ := renderB_head (.num q) h
    rw [pfV, hB]
    simp only [List.length_cons]
    omega
  | .str bs, _ => by
    rw [pfV, renderB_str]
    simp only [List.length_cons, List.length_append]
    omega
  | .arr xs, h => by
    rw [pfV, renderB_arr]
    have := pfL_le xs ((RTv_arr xs) ▸ h)
    simp only [List.length_cons, List.length_append]
    omega
  | .obj ps, h => by
    rw [pfV, renderB_obj]
    have := pfP_le ps ((RTv_obj ps) ▸ h)
    simp only [List.length_cons, List.length_append]
    omega

theorem pfL_le : ∀ xs : JList, RTl xs → pfL xs ≤ 2 * (renderL xs).length + 1
  | .nil, _ => by
    rw [pfL, renderL_nil]
    simp
  | .cons v t, h => by
    have h2 := (RTl_cons v t) ▸ h
    have h1 := pfV_le v h2.1
    have h3 := pfL_le t h2.2
    obtain ⟨hd, tl, hB, -⟩ := renderB_head v h2.1
    have hlen : 1 ≤ (renderB v).length := by
      rw [hB]
      simp
    rw [pfL, renderL_cons]
    by_cases ht : t.len = 0
    · rw [if_pos ht]
      simp only [List.length_append, List.length_nil]
      omega
    · rw [if_neg ht]
      simp only [List.length_append, List.length_cons, List.length_nil]
      omega

theorem pfP_le : ∀ ps : JPairs, RTp ps → pfP ps ≤ 2 * (renderP ps).length + 1
  | .nil, _ => by
    rw [pfP, renderP_nil]
    simp
  | .cons kv v t, h => by
    have h2 := (RTp_cons kv v t) ▸ h
    have h1 := pfV_le kv h2.1
    have h1b := pfV_le v h2.2.1
    have h3 := pfP_le t h2.2.2
    obtain ⟨hd, tl, hB, -⟩ := renderB_head kv h2.1
    have hlen : 1 ≤ (renderB kv).length := by
      rw [hB]
      simp
    rw [pfP, renderP_cons]
    by_cases ht : t.len = 0
    · rw [if_pos ht]
      simp only [List.length_append, List.length_nil, List.length_cons]
      omega
    · rw [if_neg ht]
      simp only [List.length_append, List.length_nil, List.length_cons]
      omega

end

/-- C2, amended: for every non-literal value `v` whose strings hold no NUL,
    no quote and only byte values, and whose numbers survive `%g`
    formatting followed by `strtod` exactly (`RTv v`), dumping the encoded
    buffer writes exactly `renderB v` and re-parsing that text rebuilds the
    byte-identical buffer.  By `jstream_encode`, every buffer a successful
    parse produces is `encB v` for some such abstract `v`, so this is the
    parse–dump–reparse cycle of the original claim, restricted to the
    values on which it actually holds. -/
theorem C2_roundtrip (v : JVal) (hv : RTv v) (hnl : ¬ litForm v) :
    jstream_dump (encB v) = some (renderB v, []) ∧
    jstream (intsOf (renderB v)) = .ok (encB v) := by
  constructor
  · unfold jstream_dump
    have h := dump_encB v (RTv_SGood v hv) ((encB v).length + 1) []
      (by have := vCount_le v; omega)
    rw [List.append_nil] at h
    exact h
  · unfold jstream
    obtain ⟨hd, tl, hB, hOK⟩ := renderB_head v hv
    have hin : intsOf (renderB v) = (hd : Int) :: intsOf tl := by
      rw [hB]
      rfl
    have hnx : jstream_next ⟨intsOf (renderB v), -1, []⟩ =
        ⟨intsOf tl, (hd : Int), []⟩ := by
      rw [hin]
      show nextGo _ _ = _
      rw [nextGo, headOK_not_ws hd hOK]
      rfl
    rw [hnx]
    have hfuel : pfV v ≤ 3 * (intsOf (renderB v)).length + 4 := by
      have := pfV_le v hv
      rw [intsOf_length]
      omega
    have hval := parse_render v hv _ hfuel hd tl hB []
      (show termOK v [] from hnl) []
    rw [List.append_nil] at hval
    rw [hval]
    rfl

/-- Witness for the amended C2 at the one-byte string `"a"`. -/
theorem C2_roundtrip_witness :
    jstream_dump (encB (.str [97])) = some (renderB (.str [97]), []) ∧
    jstream (intsOf (renderB (.str [97]))) = .ok (encB (.str [97])) :=
  C2_roundtrip (.str [97]) (by rw [RTv_str]; decide) (fun h => h)

section RatRed3

attribute [local semireducible] Rat.mul Rat.add Rat.sub Rat.inv
  Rat.ofScientific

/-- C2, counterexample to the original claim: `1234567` parses exactly, but
    `%g` prints it with six significant digits as `1.23457e+06`, which
    re-parses to the different buffer holding 1234570. -/
theorem C2_counterexample :
    jstream [49, 50, 51, 52, 53, 54, 55] =
      .ok [W.n NUMBERc, W.d 1234567, W.dp] ∧
    jstream_dump [W.n NUMBERc, W.d 1234567, W.dp] =
      some ([49, 46, 50, 51, 52, 53, 55, 101, 43, 48, 54], []) ∧
    jstream [49, 46, 50, 51, 52, 53, 55, 101, 43, 48, 54] =
      .ok [W.n NUMBERc, W.d 1234570, W.dp] ∧
    (1234570 : ℚ) ≠ 1234567 :=
  ⟨by rfl, by rfl, by rfl, by decide⟩

end RatRed3

end JStream
